import Mathlib

/-!
Verification of the puzzle-solver repository: a shallow embedding of
`puzzle_tools.py` (the generic depth-first and breadth-first solvers),
`word_ladder_puzzle.py`, `mn_puzzle.py` and `grid_peg_solitaire_puzzle.py`,
together with proofs of the specified properties.

Modelling conventions:
* A puzzle variant is a value of `PuzzleI σ`: the capability contract
  (`extensions`, `is_solved`, `fail_fast`) over a state type `σ` with
  decidable structural equality, mirroring the `Puzzle` base class.
* The recursive / looping solvers are given an explicit fuel parameter so
  that they are total Lean functions.  A result `none` means the fuel ran
  out; `some r` means the Python function terminates with result `r`.
* A `PuzzleNode` chain returned by a solver is represented by the list of
  puzzle states from the root to the solved leaf; the node links
  (single-child `children` lists and `parent` back references) of a
  returned chain encode exactly this linear list.  During breadth-first
  search a node is represented by the pair `(state, rest)` where `rest` is
  the reversed list of states on the path back to the root (the `parent`
  chain); `rest = []` means the node's parent is absent.
* Both solvers additionally record bookkeeping that the Python code makes
  observable through the node structure: the depth-first solver returns
  the list of states that ever receive a parent assignment (line
  `p.parent = curr_node`), and the breadth-first solver returns the list
  of all nodes ever constructed (`PuzzleNode(p)` with
  `new_node.parent = curr_node`, plus the root).
-/

/-- The puzzle capability contract of `puzzle.py` consumed by
`puzzle_tools.py`: enumerate one-move extensions, recognise a solved
state, and a fail-fast pruning oracle. -/
structure PuzzleI (σ : Type) where
  extensions : σ → List σ
  is_solved : σ → Bool
  fail_fast : σ → Bool

namespace PuzzleTools

variable {σ : Type} [DecidableEq σ]

/-- The inner loop over `puzz.extensions()` of `_depth_first_solve`
(lines 57-65): try each extension in order with the recursive solver `f`,
stopping at the first extension that yields a solution.  The second list
accumulates the states that received a parent assignment inside the
recursive calls; on success the head of the returned chain also gets its
parent assigned (lines 67-73). -/
def dfsTry (f : σ → Option (Option (List σ) × List σ)) :
    List σ → List σ → Option (Option (List σ) × List σ)
  | [], acc => some (none, acc)
  | p :: rest, acc =>
    match f p with
    | none => none
    | some (none, a) => dfsTry f rest (acc ++ a)
    | some (some ch, a) => some (some ch, acc ++ a ++ ch.take 1)

/-- `_depth_first_solve(puzz, seen)` of `puzzle_tools.py` (lines 25-77).
`seen` is the path-local tuple of previously seen puzzle states.  The
result chain is the list of states from `puzz` to the solved state; the
second component lists every state whose node received a parent
assignment during the call. -/
def _depth_first_solve (P : PuzzleI σ) :
    Nat → σ → List σ → Option (Option (List σ) × List σ)
  | 0, _, _ => none
  | fuel + 1, puzz, seen =>
    if puzz ∈ seen then some (none, [])
    else if P.fail_fast puzz then some (none, [])
    else if P.is_solved puzz then some (some [puzz], [])
    else
      match dfsTry (fun p => _depth_first_solve P fuel p (seen ++ [puzz]))
          (P.extensions puzz) [] with
      | none => none
      | some (none, a) => some (none, a)
      | some (some ch, a) => some (some (puzz :: ch), a)

/-- `depth_first_solve(puzzle)` (lines 15-80): run the recursive helper
with an empty `seen` tuple. -/
def depth_first_solve (P : PuzzleI σ) (fuel : Nat) (puzzle : σ) :
    Option (Option (List σ) × List σ) :=
  _depth_first_solve P fuel puzzle []

/-- The returned chain of `depth_first_solve`, without the
parent-assignment bookkeeping. -/
def dfsResult (P : PuzzleI σ) (fuel : Nat) (puzzle : σ) :
    Option (Option (List σ)) :=
  (depth_first_solve P fuel puzzle).map Prod.fst

/-- The body of the `for p in curr_node.puzzle.extensions():` loop of
`_breadth_first_solve` (lines 114-122), folded over the extension list:
each extension not already seen becomes a new node with parent `c`,
is appended to the back of the queue and to `seen` immediately, and is
recorded in the list of created nodes. -/
def bfsEnqueue (c : σ × List σ) :
    List σ → List (σ × List σ) → List σ → List (σ × List σ) →
    List (σ × List σ) × List σ × List (σ × List σ)
  | [], q, seen, created => (q, seen, created)
  | p :: rest, q, seen, created =>
    if p ∈ seen then bfsEnqueue c rest q seen created
    else bfsEnqueue c rest (q ++ [(p, c.1 :: c.2)]) (seen ++ [p])
      (created ++ [(p, c.1 :: c.2)])

/-- The `while not curr_node.puzzle.is_solved() and len(q) > 0:` loop of
`_breadth_first_solve` (lines 110-137) together with the final chain
reconstruction (lines 126-132).  A node is `(state, rest)` with `rest`
the reversed parent path, so the reconstructed root-to-leaf chain of a
solved node `curr` is `(curr.1 :: curr.2).reverse`. -/
def bfsLoop (P : PuzzleI σ) :
    Nat → σ × List σ → List (σ × List σ) → List σ → List (σ × List σ) →
    Option (Option (List σ) × List (σ × List σ))
  | 0, _, _, _, _ => none
  | fuel + 1, curr, q, seen, created =>
    if P.is_solved curr.1 then some (some (curr.1 :: curr.2).reverse, created)
    else
      match q with
      | [] => some (none, created)
      | c :: q' =>
        let r := bfsEnqueue c (P.extensions c.1) q' (seen ++ [c.1]) created
        bfsLoop P fuel c r.1 r.2.1 r.2.2

/-- `breadth_first_solve(puzzle)` (lines 82-139): the root node for the
initial state is created, enqueued, and the loop is entered with an empty
`seen` tuple.  The second component of the result lists every node the
solver constructed. -/
def breadth_first_solve (P : PuzzleI σ) (fuel : Nat) (puzzle : σ) :
    Option (Option (List σ) × List (σ × List σ)) :=
  bfsLoop P fuel (puzzle, []) [(puzzle, [])] [] [(puzzle, [])]

/-- The returned chain of `breadth_first_solve`, without the created-node
bookkeeping. -/
def bfsResult (P : PuzzleI σ) (fuel : Nat) (puzzle : σ) :
    Option (Option (List σ)) :=
  (breadth_first_solve P fuel puzzle).map Prod.fst

/-- The list of nodes constructed by `breadth_first_solve` (empty if the
fuel ran out). -/
def bfsCreated (P : PuzzleI σ) (fuel : Nat) (puzzle : σ) :
    List (σ × List σ) :=
  ((breadth_first_solve P fuel puzzle).map Prod.snd).getD []

/-- A root-to-leaf chain of states starting at `s` in which every
consecutive pair is one legal move apart: the adjacency contract of a
returned `PuzzleNode` chain. -/
def IsChainFrom (P : PuzzleI σ) (s : σ) (l : List σ) : Prop :=
  l.head? = some s ∧ l.Chain' (fun a b => b ∈ P.extensions a)

/-- A solution chain from `s`: a valid chain whose final state is solved. -/
def IsSolutionChain (P : PuzzleI σ) (s : σ) (l : List σ) : Prop :=
  IsChainFrom P s l ∧ ∃ t, l.getLast? = some t ∧ P.is_solved t = true

/-- `t` is reachable from `s` by at most `k` extension moves. -/
inductive ReachIn (P : PuzzleI σ) : Nat → σ → σ → Prop
  | refl (k : Nat) (s : σ) : ReachIn P k s s
  | step {k : Nat} {s u t : σ} : ReachIn P k s u → t ∈ P.extensions u →
      ReachIn P (k + 1) s t

/-- All states reachable from `s` within `n` moves, as a concrete list. -/
def reachList (P : PuzzleI σ) : σ → Nat → List σ
  | s, 0 => [s]
  | s, n + 1 => s :: (P.extensions s).flatMap (fun p => reachList P p n)

/-- Validity of a breadth-first node `(s, rest)`: `rest` is the reversed
path of states from the parent back to the initial state `init`, each
link being one extension move. -/
def RChain (P : PuzzleI σ) (init : σ) : σ → List σ → Prop
  | s, [] => s = init
  | s, u :: r => s ∈ P.extensions u ∧ RChain P init u r

/-- The loop invariant of `_breadth_first_solve` used to prove
minimality.  `curr` is the most recently dequeued (and expanded) node,
`q` the queue, `seen` the seen tuple, `created` all constructed nodes,
and `R` a finite cover of the states the search can still discover. -/
structure BfsInv (P : PuzzleI σ) (init : σ) (R : List σ)
    (curr : σ × List σ) (q : List (σ × List σ)) (seen : List σ)
    (created : List (σ × List σ)) : Prop where
  vcurr : RChain P init curr.1 curr.2
  vq : ∀ n ∈ q, RChain P init n.1 n.2
  win : ∀ n ∈ q, curr.2.length ≤ n.2.length ∧ n.2.length ≤ curr.2.length + 1
  sorted : q.Pairwise (fun a b => a.2.length ≤ b.2.length)
  discovered : ∀ t, ReachIn P curr.2.length init t → t ∈ seen
  expanded : ∀ t ∈ seen, (∃ n ∈ q, n.1 = t) ∨
    ((∀ e ∈ P.extensions t, e ∈ seen) ∧
      (t = curr.1 ∨ P.is_solved t = false))
  minc : ∀ k, ReachIn P k init curr.1 → curr.2.length ≤ k
  minq : ∀ n ∈ q, ∀ k, ReachIn P k init n.1 → n.2.length ≤ k
  qseen : ∀ n ∈ q, n.1 ∈ seen
  cNodup : (created.map Prod.fst).Nodup
  cSeen : ∀ n ∈ created, n.1 ∈ seen
  cR : ∀ n ∈ created, n.1 ∈ R

/-- Soundness contract for `fail_fast` (spec §4.1): when it returns true,
no state reachable by any sequence of extensions is solved. -/
def FailFastSound (P : PuzzleI σ) : Prop :=
  ∀ s, P.fail_fast s = true → ∀ k t, ReachIn P k s t →
    P.is_solved t = false

end PuzzleTools

/-! ## `word_ladder_puzzle.py` -/

/-- `WordLadderPuzzle.__init__`: the current word `_from_word`, the goal
word `_to_word` and the allowed word set `_word_set` (a finite set of
words, represented by the list of its elements).  Words are lists of
characters.  The character alphabet `_chars` is the same constant
`"abcdefghijklmnopqrstuvwxyz"` on every instance, so structural equality
(`__eq__`, which also compares `_chars`) is equality of the three stored
fields. -/
structure WordLadderPuzzle where
  from_word : List Char
  to_word : List Char
  word_set : List (List Char)
deriving DecidableEq

namespace WordLadderPuzzle

/-- `self._chars = "abcdefghijklmnopqrstuvwxyz"`. -/
def chars : List Char :=
  ['a', 'b', 'c', 'd', 'e', 'f', 'g', 'h', 'i', 'j', 'k', 'l', 'm',
   'n', 'o', 'p', 'q', 'r', 's', 't', 'u', 'v', 'w', 'x', 'y', 'z']

/-- `WordLadderPuzzle.extensions` (lines 64-91): for each position `i` of
`_from_word` and each character `c` of `_chars`, substitute `c` at
position `i`; keep the result when it lies in `_word_set` and differs
from `_from_word`. -/
def extensions (p : WordLadderPuzzle) : List WordLadderPuzzle :=
  (List.range p.from_word.length).flatMap fun i =>
    chars.filterMap fun c =>
      let new_word := p.from_word.take i ++ [c] ++ p.from_word.drop (i + 1)
      if new_word ∈ p.word_set ∧ new_word ≠ p.from_word then
        some ⟨new_word, p.to_word, p.word_set⟩
      else none

/-- `WordLadderPuzzle.is_solved` (lines 93-111):
`self._from_word == self._to_word`. -/
def is_solved (p : WordLadderPuzzle) : Bool :=
  p.from_word == p.to_word

/-- `WordLadderPuzzle.fail_fast` (lines 113-132):
`len(self._from_word) != len(self._to_word)`. -/
def fail_fast (p : WordLadderPuzzle) : Bool :=
  p.from_word.length != p.to_word.length

/-- The puzzle contract implemented by `WordLadderPuzzle`. -/
def I : PuzzleI WordLadderPuzzle :=
  ⟨extensions, is_solved, fail_fast⟩

end WordLadderPuzzle

/-! ## `mn_puzzle.py` -/

/-- `MNPuzzle.__init__`: current configuration `from_grid` and solution
configuration `to_grid`, each a rectangular grid of symbol strings with
the blank written `"*"`.  The stored dimensions `n` (rows) and `m`
(columns) are recomputed from `from_grid`. -/
structure MNPuzzle where
  from_grid : List (List String)
  to_grid : List (List String)
deriving DecidableEq

namespace MNPuzzle

/-- `self.n = len(from_grid)`. -/
def n (p : MNPuzzle) : Nat := p.from_grid.length

/-- `self.m = len(from_grid[0])`. -/
def m (p : MNPuzzle) : Nat := (p.from_grid.headD []).length

/-- Write value `v` at cell `(r, c)` of grid `g`
(`new_grid[r][c] = v` after the list-of-lists copy). -/
def setCell (g : List (List String)) (r c : Nat) (v : String) :
    List (List String) :=
  g.set r ((g.getD r []).set c v)

/-- One swap of the blank at `(row, column)` with the tile at
`(row', column')`: the tuple-of-tuples grid rebuilt with `"*"` moved to
`(row', column')` and the displaced symbol moved to `(row, column)`. -/
def swapBlank (g : List (List String)) (row column row' column' : Nat) :
    List (List String) :=
  setCell (setCell g row' column' "*") row column
    ((g.getD row' []).getD column' "")

/-- `MNPuzzle.extensions` (lines 87-160): scan every cell; at each cell
holding `"*"` emit, in source order, the swaps with the cell above
(`row - 1`), below (`row + 1`), to the left (`column - 1`) and to the
right (`column + 1`) whenever that index is in range (the Python test
`row - 1 in range(self.n)` is false for `row = 0`, and similarly for
columns). -/
def extensions (p : MNPuzzle) : List MNPuzzle :=
  (List.range p.n).flatMap fun row =>
    (List.range p.m).flatMap fun column =>
      if (p.from_grid.getD row []).getD column "" = "*" then
        (if 1 ≤ row then
          [⟨swapBlank p.from_grid row column (row - 1) column, p.to_grid⟩]
         else []) ++
        (if row + 1 < p.n then
          [⟨swapBlank p.from_grid row column (row + 1) column, p.to_grid⟩]
         else []) ++
        (if 1 ≤ column then
          [⟨swapBlank p.from_grid row column row (column - 1), p.to_grid⟩]
         else []) ++
        (if column + 1 < p.m then
          [⟨swapBlank p.from_grid row column row (column + 1), p.to_grid⟩]
         else [])
      else []

/-- `MNPuzzle.is_solved` (lines 166-184):
`self.from_grid == self.to_grid`. -/
def is_solved (p : MNPuzzle) : Bool :=
  p.from_grid == p.to_grid

/-- Modelled from the spec: `puzzle.py` (the `Puzzle` base class) is not
among the sources; §4.1 specifies the default `fail_fast`, which returns
false and is inherited unchanged by `MNPuzzle`. -/
def fail_fast (_ : MNPuzzle) : Bool := false

/-- The puzzle contract implemented by `MNPuzzle`. -/
def I : PuzzleI MNPuzzle :=
  ⟨extensions, is_solved, fail_fast⟩

end MNPuzzle

/-! ## `grid_peg_solitaire_puzzle.py` -/

/-- `GridPegSolitairePuzzle.__init__`: the grid `_marker` of markers
(`"*"` peg, `"."` empty, `"#"` unused) and the allowed marker set
`_marker_set` (represented by the list of its elements). -/
structure GridPegSolitairePuzzle where
  marker : List (List String)
  marker_set : List String
deriving DecidableEq

namespace GridPegSolitairePuzzle

/-- Write value `v` at cell `(r, c)` of grid `g`. -/
def setCell (g : List (List String)) (r c : Nat) (v : String) :
    List (List String) :=
  g.set r ((g.getD r []).set c v)

/-- `GridPegSolitairePuzzle.extensions` (lines 105-255): for every peg
`(row, column)` emit, in source order, the four possible jumps of that
peg (to the left, to the right, up, down) over an adjacent peg into a
hole two cells away.  The Python guard `(column - 2) in range(len(row))`
means `2 ≤ column` (and then `column - 2 < len(row)` holds), and
similarly for the other directions.  Horizontal jumps rebuild the row by
slicing; vertical jumps assign the three cells directly.  Every new
puzzle is constructed with the literal marker set
`{"*", ".", "#"}`. -/
def extensions (p : GridPegSolitairePuzzle) : List GridPegSolitairePuzzle :=
  (List.range p.marker.length).flatMap fun row =>
    let r := p.marker.getD row []
    (List.range r.length).flatMap fun column =>
      if r.getD column "" = "*" then
        (if 2 ≤ column ∧ r.getD (column - 2) "" = "." ∧
            r.getD (column - 1) "" = "*" then
          [⟨p.marker.set row
              (r.take (column - 2) ++ ["*", ".", "."] ++ r.drop (column + 1)),
            ["*", ".", "#"]⟩]
         else []) ++
        (if column + 2 < r.length ∧ r.getD (column + 2) "" = "." ∧
            r.getD (column + 1) "" = "*" then
          [⟨p.marker.set row
              (r.take column ++ [".", ".", "*"] ++ r.drop (column + 3)),
            ["*", ".", "#"]⟩]
         else []) ++
        (if 2 ≤ row ∧ (p.marker.getD (row - 2) []).getD column "" = "." ∧
            (p.marker.getD (row - 1) []).getD column "" = "*" then
          [⟨setCell (setCell (setCell p.marker (row - 2) column "*")
              (row - 1) column ".") row column ".", ["*", ".", "#"]⟩]
         else []) ++
        (if row + 2 < p.marker.length ∧
            (p.marker.getD (row + 2) []).getD column "" = "." ∧
            (p.marker.getD (row + 1) []).getD column "" = "*" then
          [⟨setCell (setCell (setCell p.marker (row + 2) column "*")
              (row + 1) column ".") row column ".", ["*", ".", "#"]⟩]
         else [])
      else []

/-- The number of pegs `"*"` on the grid (the accumulator of
`is_solved`, lines 261-296). -/
def pegCount (p : GridPegSolitairePuzzle) : Nat :=
  (p.marker.map fun row => row.count "*").sum

/-- `GridPegSolitairePuzzle.is_solved`: exactly one peg remains. -/
def is_solved (p : GridPegSolitairePuzzle) : Bool :=
  pegCount p == 1

/-- Modelled from the spec: `puzzle.py` (the `Puzzle` base class) is not
among the sources; §4.1 specifies the default `fail_fast`, which returns
false and is inherited unchanged by `GridPegSolitairePuzzle`. -/
def fail_fast (_ : GridPegSolitairePuzzle) : Bool := false

/-- The puzzle contract implemented by `GridPegSolitairePuzzle`. -/
def I : PuzzleI GridPegSolitairePuzzle :=
  ⟨extensions, is_solved, fail_fast⟩

end GridPegSolitairePuzzle

/-! ## Concrete puzzle instances used in the scenario properties -/

/-- The vocabulary of the concrete word-ladder scenario:
`{"cost", "cast", "case", "cave", "save"}`. -/
def wlWords : List (List Char) :=
  [['c', 'o', 's', 't'], ['c', 'a', 's', 't'], ['c', 'a', 's', 'e'],
   ['c', 'a', 'v', 'e'], ['s', 'a', 'v', 'e']]

/-- The concrete scenario puzzle: from `"cost"` to `"save"`. -/
def costSave : WordLadderPuzzle := ⟨['c', 'o', 's', 't'], ['s', 'a', 'v', 'e'], wlWords⟩

/-- The expected 5-state solution chain `cost → cast → case → cave →
save`. -/
def costChain : List WordLadderPuzzle :=
  [⟨['c', 'o', 's', 't'], ['s', 'a', 'v', 'e'], wlWords⟩,
   ⟨['c', 'a', 's', 't'], ['s', 'a', 'v', 'e'], wlWords⟩,
   ⟨['c', 'a', 's', 'e'], ['s', 'a', 'v', 'e'], wlWords⟩,
   ⟨['c', 'a', 'v', 'e'], ['s', 'a', 'v', 'e'], wlWords⟩,
   ⟨['s', 'a', 'v', 'e'], ['s', 'a', 'v', 'e'], wlWords⟩]

/-- A small two-letter vocabulary whose move graph has cycles:
`{"aa", "ab", "ba", "bb"}`. -/
def wl2 : List (List Char) :=
  [['a', 'a'], ['a', 'b'], ['b', 'a'], ['b', 'b']]

/-- The word ladder from `"aa"` to `"bb"` over `wl2`. -/
def aabb : WordLadderPuzzle := ⟨['a', 'a'], ['b', 'b'], wl2⟩

/-- The word ladder from `"aa"` to `"zz"` over `wl2`: unsolvable, with a
cyclic state graph. -/
def aazz : WordLadderPuzzle := ⟨['a', 'a'], ['z', 'z'], wl2⟩

/-- The four states reachable in the `wl2` ladders. -/
def aazzStates : List WordLadderPuzzle :=
  [⟨['a', 'a'], ['z', 'z'], wl2⟩, ⟨['a', 'b'], ['z', 'z'], wl2⟩,
   ⟨['b', 'a'], ['z', 'z'], wl2⟩, ⟨['b', 'b'], ['z', 'z'], wl2⟩]

/-- The node for `"ab"` created by breadth-first search on `aabb`, with
its parent reference to the root node. -/
def abNode : WordLadderPuzzle × List WordLadderPuzzle :=
  (⟨['a', 'b'], ['b', 'b'], wl2⟩, [⟨['a', 'a'], ['b', 'b'], wl2⟩])

/-- The chain returned by breadth-first search on `aabb`. -/
def aabbChain : List WordLadderPuzzle :=
  [⟨['a', 'a'], ['b', 'b'], wl2⟩, ⟨['b', 'a'], ['b', 'b'], wl2⟩,
   ⟨['b', 'b'], ['b', 'b'], wl2⟩]

/-! ## Witness instances -/

/-- The already-solved word ladder `"save" → "save"`. -/
def saveSave : WordLadderPuzzle := ⟨['s', 'a', 'v', 'e'], ['s', 'a', 'v', 'e'], wlWords⟩

/-- The word ladder `"sam" → "save"`, rejected by `fail_fast` because
the word lengths differ. -/
def samSave : WordLadderPuzzle := ⟨['s', 'a', 'm'], ['s', 'a', 'v', 'e'], wlWords⟩

/-- The list of nodes constructed by breadth-first search on `aabb`. -/
def aabbCreated : List (WordLadderPuzzle × List WordLadderPuzzle) :=
  [(⟨['a', 'a'], ['b', 'b'], wl2⟩, []),
   (⟨['b', 'a'], ['b', 'b'], wl2⟩, [⟨['a', 'a'], ['b', 'b'], wl2⟩]),
   (⟨['a', 'b'], ['b', 'b'], wl2⟩, [⟨['a', 'a'], ['b', 'b'], wl2⟩]),
   (⟨['b', 'b'], ['b', 'b'], wl2⟩,
     [⟨['b', 'a'], ['b', 'b'], wl2⟩, ⟨['a', 'a'], ['b', 'b'], wl2⟩])]

/-- A one-row peg-solitaire grid with two pegs and one hole. -/
def pegRow : GridPegSolitairePuzzle := ⟨[["*", "*", "."]], ["*", ".", "#"]⟩

/-- The unique extension of `pegRow`: the left peg jumps right. -/
def pegRowJump : GridPegSolitairePuzzle := ⟨[[".", ".", "*"]], ["*", ".", "#"]⟩

/-- The list of nodes constructed by breadth-first search on
`costSave`. -/
def costCreated : List (WordLadderPuzzle × List WordLadderPuzzle) :=
  [(costSave, []),
   (⟨['c', 'a', 's', 't'], ['s', 'a', 'v', 'e'], wlWords⟩, [costSave]),
   (⟨['c', 'a', 's', 'e'], ['s', 'a', 'v', 'e'], wlWords⟩,
     [⟨['c', 'a', 's', 't'], ['s', 'a', 'v', 'e'], wlWords⟩, costSave]),
   (⟨['c', 'a', 'v', 'e'], ['s', 'a', 'v', 'e'], wlWords⟩,
     [⟨['c', 'a', 's', 'e'], ['s', 'a', 'v', 'e'], wlWords⟩,
      ⟨['c', 'a', 's', 't'], ['s', 'a', 'v', 'e'], wlWords⟩, costSave]),
   (⟨['s', 'a', 'v', 'e'], ['s', 'a', 'v', 'e'], wlWords⟩,
     [⟨['c', 'a', 'v', 'e'], ['s', 'a', 'v', 'e'], wlWords⟩,
      ⟨['c', 'a', 's', 'e'], ['s', 'a', 'v', 'e'], wlWords⟩,
      ⟨['c', 'a', 's', 't'], ['s', 'a', 'v', 'e'], wlWords⟩, costSave])]

/-! ## Generic lemmas about reachability and chains -/

namespace PuzzleTools

variable {σ : Type} [DecidableEq σ]

theorem ReachIn.le_mono {P : PuzzleI σ} {k k' : Nat} {s t : σ}
    (hk : k ≤ k') (h : ReachIn P k s t) : ReachIn P k' s t := by
  induction h generalizing k' with
  | refl => exact ReachIn.refl _ _
  | step hr he ih =>
    match k', hk with
    | k' + 1, hk => exact ReachIn.step (ih (Nat.le_of_succ_le_succ hk)) he

/-- Inversion: nothing but the start is reachable in zero moves. -/
theorem ReachIn.cases_zero {P : PuzzleI σ} {s t : σ}
    (h : ReachIn P 0 s t) : t = s := by
  cases h
  rfl

/-- Inversion of a reachability bound `k + 1`: either the target is the
start, or it extends a state reachable within `k`. -/
theorem ReachIn.cases_succ {P : PuzzleI σ} {s t : σ} {k : Nat}
    (h : ReachIn P (k + 1) s t) :
    t = s ∨ ∃ u, ReachIn P k s u ∧ t ∈ P.extensions u := by
  cases h with
  | refl => exact Or.inl rfl
  | step hr he => exact Or.inr ⟨_, hr, he⟩

/-- Any list of states containing the start and closed under extensions
contains every reachable state. -/
theorem reach_mem_of_closed {P : PuzzleI σ} {init : σ} {seen : List σ}
    (hinit : init ∈ seen)
    (hclosure : ∀ t ∈ seen, ∀ e ∈ P.extensions t, e ∈ seen) :
    ∀ (k : Nat) (t : σ), ReachIn P k init t → t ∈ seen := by
  intro k
  induction k with
  | zero =>
    intro t h
    rw [h.cases_zero]
    exact hinit
  | succ k ihk =>
    intro t h
    rcases h.cases_succ with rfl | ⟨u, hu, he⟩
    · exact hinit
    · exact hclosure u (ihk u hu) t he

theorem self_mem_reachList (P : PuzzleI σ) (s : σ) (n : Nat) :
    s ∈ reachList P s n := by
  cases n <;> simp [reachList]

theorem mem_reachList_step {P : PuzzleI σ} {s u t : σ} {k : Nat}
    (hu : u ∈ reachList P s k) (ht : t ∈ P.extensions u) :
    t ∈ reachList P s (k + 1) := by
  induction k generalizing s with
  | zero =>
    simp only [reachList, List.mem_singleton] at hu
    subst hu
    exact List.mem_cons_of_mem _
      (List.mem_flatMap.2 ⟨t, ht, self_mem_reachList P t 0⟩)
  | succ k ih =>
    simp only [reachList, List.mem_cons, List.mem_flatMap] at hu
    rcases hu with rfl | ⟨p, hp, hu⟩
    · exact List.mem_cons_of_mem _
        (List.mem_flatMap.2 ⟨t, ht, self_mem_reachList P t (k + 1)⟩)
    · exact List.mem_cons_of_mem _ (List.mem_flatMap.2 ⟨p, hp, ih hu⟩)

theorem mem_reachList_of_reachIn {P : PuzzleI σ} {k : Nat} {s t : σ}
    (h : ReachIn P k s t) : t ∈ reachList P s k := by
  induction h with
  | refl k s => exact self_mem_reachList P s k
  | step hr he ih => exact mem_reachList_step ih he

/-- Prepending one extension step to a reachability derivation. -/
theorem ReachIn.prepend {P : PuzzleI σ} {m : Nat} {a u t : σ}
    (hr : ReachIn P m u t) (hu : u ∈ P.extensions a) :
    ReachIn P (m + 1) a t := by
  induction hr with
  | refl => exact ReachIn.step (ReachIn.refl _ _) hu
  | step hr' he' ih' => exact ReachIn.step (ih' hu) he'

/-- The last state of a valid chain from `s` is reachable from `s` within
the number of extension steps of the chain. -/
theorem reachIn_of_chain {P : PuzzleI σ} :
    ∀ {l : List σ} {s : σ}, IsChainFrom P s l → ∀ {t : σ},
    l.getLast? = some t → ReachIn P (l.length - 1) s t := by
  intro l
  induction l with
  | nil => intro s h t ht; exact absurd h.1 (by simp)
  | cons a l ih =>
    intro s h t ht
    obtain ⟨hhead, hchain⟩ := h
    simp only [List.head?_cons, Option.some.injEq] at hhead
    subst hhead
    cases l with
    | nil =>
      simp only [List.getLast?_singleton, Option.some.injEq] at ht
      subst ht
      exact ReachIn.refl _ _
    | cons b l' =>
      have hstep : b ∈ P.extensions a := (List.chain'_cons.1 hchain).1
      have hrest := @ih b ⟨rfl, (List.chain'_cons.1 hchain).2⟩ t
        (by simpa using ht)
      simpa using hrest.prepend hstep

/-- A list without duplicates all of whose members lie in `r` is no longer
than `r.dedup`. -/
theorem nodup_length_le_dedup {l r : List σ} (h : l.Nodup) (hs : l ⊆ r) :
    l.length ≤ r.dedup.length := by
  have h1 : l.toFinset.card = l.length := List.toFinset_card_of_nodup h
  have h2 : r.toFinset.card = r.dedup.length := List.card_toFinset r
  have h3 : l.toFinset ⊆ r.toFinset := by
    intro x hx
    simp only [List.mem_toFinset] at *
    exact hs hx
  have h4 := Finset.card_le_card h3
  omega

/-! ## Lemmas about the depth-first solver -/

/-- If the inner extension loop produces a solution chain, that chain came
from the recursive solver on one of the extensions. -/
theorem dfsTry_eq_some_some {f : σ → Option (Option (List σ) × List σ)}
    {l acc : List σ} {ch a : List σ}
    (h : dfsTry f l acc = some (some ch, a)) :
    ∃ p ∈ l, ∃ a', f p = some (some ch, a') := by
  induction l generalizing acc with
  | nil => simp [dfsTry] at h
  | cons p rest ih =>
    simp only [dfsTry] at h
    cases hf : f p with
    | none => rw [hf] at h; exact absurd h (by simp)
    | some r =>
      rw [hf] at h
      obtain ⟨ro, ra⟩ := r
      cases ro with
      | none =>
        simp only at h
        obtain ⟨p', hp', hres⟩ := ih h
        exact ⟨p', List.mem_cons_of_mem _ hp', hres⟩
      | some ch' =>
        simp only [Option.some.injEq, Prod.mk.injEq] at h
        exact ⟨p, List.mem_cons_self _ _, ra, by rw [hf, h.1]⟩

/-- If every recursive call on the extension list terminates with no
solution, the loop terminates with no solution. -/
theorem dfsTry_eq_some_none {f : σ → Option (Option (List σ) × List σ)}
    {l : List σ} (h : ∀ p ∈ l, ∃ a, f p = some (none, a)) (acc : List σ) :
    ∃ a, dfsTry f l acc = some (none, a) := by
  induction l generalizing acc with
  | nil => exact ⟨acc, rfl⟩
  | cons p rest ih =>
    obtain ⟨a, ha⟩ := h p (List.mem_cons_self _ _)
    simp only [dfsTry, ha]
    exact ih (fun p hp => h p (List.mem_cons_of_mem _ hp)) _

/-- Soundness of the returned chain of `_depth_first_solve`: it starts at
the argument state, consecutive states are one move apart, the last state
is solved, the chain has no duplicate states, and no state of the chain
occurs in `seen`. -/
theorem dfs_chain_sound {P : PuzzleI σ} :
    ∀ {fuel : Nat} {puzz : σ} {seen : List σ} {ch a : List σ},
    _depth_first_solve P fuel puzz seen = some (some ch, a) →
    ch.head? = some puzz ∧ ch.Chain' (fun x y => y ∈ P.extensions x) ∧
      (∃ t, ch.getLast? = some t ∧ P.is_solved t = true) ∧
      ch.Nodup ∧ ∀ x ∈ ch, x ∉ seen := by
  intro fuel
  induction fuel with
  | zero => intro puzz seen ch a h; simp [_depth_first_solve] at h
  | succ fuel ih =>
    intro puzz seen ch a h
    by_cases hseen : puzz ∈ seen
    · simp [_depth_first_solve, hseen] at h
    by_cases hff : P.fail_fast puzz
    · simp [_depth_first_solve, hseen, hff] at h
    by_cases hsol : P.is_solved puzz
    · simp only [_depth_first_solve, if_neg hseen, if_neg hff, if_pos hsol,
        Option.some.injEq, Prod.mk.injEq] at h
      obtain ⟨h1, -⟩ := h
      subst h1
      exact ⟨rfl, List.chain'_singleton _, ⟨puzz, rfl, hsol⟩,
        List.nodup_singleton _, by simpa using hseen⟩
    · simp only [_depth_first_solve, if_neg hseen, if_neg hff,
        if_neg hsol] at h
      cases htry : dfsTry (fun p => _depth_first_solve P fuel p
          (seen ++ [puzz])) (P.extensions puzz) [] with
      | none => rw [htry] at h; exact absurd h (by simp)
      | some r =>
        rw [htry] at h
        obtain ⟨ro, ra⟩ := r
        cases ro with
        | none => simp at h
        | some ch' =>
          simp only [Option.some.injEq, Prod.mk.injEq] at h
          obtain ⟨h1, -⟩ := h
          subst h1
          obtain ⟨p, hp, a', hrec⟩ := dfsTry_eq_some_some htry
          obtain ⟨hh, hc, hlast, hnd, hdis⟩ := ih hrec
          have hne : ch' ≠ [] := by
            intro hc'; rw [hc'] at hh; simp at hh
          refine ⟨rfl, ?_, ?_, ?_, ?_⟩
          · exact List.chain'_cons'.2 ⟨fun y hy => by
              rw [hh] at hy
              simp only [Option.mem_def, Option.some.injEq] at hy
              subst hy
              exact hp, hc⟩
          · obtain ⟨t, ht, hts⟩ := hlast
            exact ⟨t, List.mem_getLast?_cons (by exact ht), hts⟩
          · refine List.nodup_cons.2 ⟨fun hmem => ?_, hnd⟩
            exact hdis puzz hmem (by simp)
          · intro x hx
            rcases List.mem_cons.1 hx with rfl | hx'
            · exact hseen
            · intro hxs
              exact hdis x hx' (List.mem_append_left _ hxs)

/-- Parent assignments in the extension loop: under the inductive
hypothesis for the recursive calls, the accumulated assignment list of a
failed loop is exactly the accumulator, and of a successful loop is the
accumulator followed by the non-root chain states in leaf-to-root
order. -/
theorem dfsTry_assigned {f : σ → Option (Option (List σ) × List σ)}
    {l : List σ}
    (hf : ∀ p ∈ l, ∀ r a, f p = some (r, a) →
      (r = none → a = []) ∧ ∀ ch, r = some ch → ch ≠ [] ∧ a = ch.tail.reverse) :
    ∀ acc r a, dfsTry f l acc = some (r, a) →
      (r = none → a = acc) ∧
      ∀ ch, r = some ch → ch ≠ [] ∧ a = acc ++ ch.tail.reverse ++ ch.take 1 := by
  induction l with
  | nil =>
    intro acc r a h
    simp only [dfsTry, Option.some.injEq, Prod.mk.injEq] at h
    obtain ⟨rfl, rfl⟩ := h
    exact ⟨fun _ => rfl, fun ch hch => by simp at hch⟩
  | cons p rest ih =>
    intro acc r a h
    simp only [dfsTry] at h
    cases hfp : f p with
    | none => rw [hfp] at h; exact absurd h (by simp)
    | some pr =>
      rw [hfp] at h
      obtain ⟨pro, pra⟩ := pr
      cases pro with
      | none =>
        have hpa : pra = [] := ((hf p (by simp) none pra hfp).1) rfl
        subst hpa
        simp only [List.append_nil] at h
        exact ih (fun p' hp' => hf p' (List.mem_cons_of_mem _ hp')) acc r a h
      | some ch' =>
        obtain ⟨hne, hpa⟩ := (hf p (by simp) _ pra hfp).2 ch' rfl
        simp only [Option.some.injEq, Prod.mk.injEq] at h
        obtain ⟨h1, h2⟩ := h
        subst h1 h2
        refine ⟨fun hc => by simp at hc, fun ch hch => ?_⟩
        obtain rfl : ch' = ch := by simpa using hch
        subst hpa
        exact ⟨hne, rfl⟩

/-- The parent assignments of `_depth_first_solve`: a failed call assigns
no parents at all, and a successful call assigns parents exactly to the
non-root states of the returned chain (in leaf-to-root order). -/
theorem dfs_assigned {P : PuzzleI σ} :
    ∀ {fuel : Nat} {puzz : σ} {seen : List σ} {r : Option (List σ)}
    {a : List σ}, _depth_first_solve P fuel puzz seen = some (r, a) →
    (r = none → a = []) ∧
    ∀ ch, r = some ch → ch ≠ [] ∧ a = ch.tail.reverse := by
  intro fuel
  induction fuel with
  | zero => intro puzz seen r a h; simp [_depth_first_solve] at h
  | succ fuel ih =>
    intro puzz seen r a h
    by_cases hseen : puzz ∈ seen
    · simp only [_depth_first_solve, if_pos hseen, Option.some.injEq,
        Prod.mk.injEq] at h
      obtain ⟨h1, h2⟩ := h
      subst h1 h2
      exact ⟨fun _ => rfl, fun ch hch => by simp at hch⟩
    by_cases hff : P.fail_fast puzz
    · simp only [_depth_first_solve, if_neg hseen, if_pos hff,
        Option.some.injEq, Prod.mk.injEq] at h
      obtain ⟨h1, h2⟩ := h
      subst h1 h2
      exact ⟨fun _ => rfl, fun ch hch => by simp at hch⟩
    by_cases hsol : P.is_solved puzz
    · simp only [_depth_first_solve, if_neg hseen, if_neg hff, if_pos hsol,
        Option.some.injEq, Prod.mk.injEq] at h
      obtain ⟨h1, h2⟩ := h
      subst h1 h2
      exact ⟨fun hc => by simp at hc, fun ch hch => by
        obtain rfl : [puzz] = ch := by simpa using hch
        exact ⟨by simp, rfl⟩⟩
    · simp only [_depth_first_solve, if_neg hseen, if_neg hff,
        if_neg hsol] at h
      cases htry : dfsTry (fun p => _depth_first_solve P fuel p
          (seen ++ [puzz])) (P.extensions puzz) [] with
      | none => rw [htry] at h; exact absurd h (by simp)
      | some tr =>
        rw [htry] at h
        obtain ⟨tro, tra⟩ := tr
        have htr := dfsTry_assigned
          (fun p _ r' a' hp => ih hp) [] tro tra htry
        cases tro with
        | none =>
          simp only [Option.some.injEq, Prod.mk.injEq] at h
          obtain ⟨h1, h2⟩ := h
          subst h1 h2
          exact ⟨fun _ => htr.1 rfl, fun ch hch => by simp at hch⟩
        | some ch' =>
          simp only [Option.some.injEq, Prod.mk.injEq] at h
          obtain ⟨h1, h2⟩ := h
          subst h1 h2
          obtain ⟨hne, hta⟩ := htr.2 ch' rfl
          refine ⟨fun hc => by simp at hc, fun ch hch => ?_⟩
          obtain rfl : puzz :: ch' = ch := by simpa using hch
          refine ⟨by simp, ?_⟩
          rw [hta]
          cases ch' with
          | nil => exact absurd rfl hne
          | cons x t => simp

/-- If every state reachable from the start lies in the closed list `R`
and none of them is solved, the recursion terminates (with enough fuel)
and reports failure. -/
theorem dfs_no_solution {P : PuzzleI σ} {R : List σ}
    (hclosed : ∀ s ∈ R, ∀ p ∈ P.extensions s, p ∈ R)
    (hnosol : ∀ s ∈ R, P.is_solved s = false) :
    ∀ (fuel : Nat) (puzz : σ) (seen : List σ), puzz ∈ R → seen.Nodup →
    (∀ x ∈ seen, x ∈ R) → R.dedup.length + 1 ≤ fuel + seen.length →
    ∃ a, _depth_first_solve P fuel puzz seen = some (none, a) := by
  intro fuel
  induction fuel with
  | zero =>
    intro puzz seen hpR hnd hsR hlen
    have := nodup_length_le_dedup hnd hsR
    omega
  | succ fuel ih =>
    intro puzz seen hpR hnd hsR hlen
    by_cases hseen : puzz ∈ seen
    · exact ⟨[], by simp [_depth_first_solve, hseen]⟩
    by_cases hff : P.fail_fast puzz
    · exact ⟨[], by simp [_depth_first_solve, hseen, hff]⟩
    have hsol : ¬ P.is_solved puzz = true := by
      simp [hnosol puzz hpR]
    obtain ⟨a, ha⟩ := dfsTry_eq_some_none
      (f := fun p => _depth_first_solve P fuel p (seen ++ [puzz]))
      (l := P.extensions puzz) (fun p hp => by
        refine ih p (seen ++ [puzz]) (hclosed puzz hpR p hp) ?_ ?_ ?_
        · simpa [List.nodup_append] using ⟨hnd, hseen⟩
        · intro x hx
          rcases List.mem_append.1 hx with hx | hx
          · exact hsR x hx
          · rw [List.mem_singleton.1 hx]; exact hpR
        · simp only [List.length_append, List.length_singleton]
          omega) []
    exact ⟨a, by simp only [_depth_first_solve, if_neg hseen, if_neg hff,
      if_neg hsol, ha]⟩

/-! ## Lemmas about the breadth-first solver -/

/-- The reconstructed chain of a valid node is a valid chain from `init`
ending in the node's own state. -/
theorem rchain_reconstruct {P : PuzzleI σ} {init : σ} :
    ∀ {rest : List σ} {s : σ}, RChain P init s rest →
    IsChainFrom P init ((s :: rest).reverse) ∧
      ((s :: rest).reverse).getLast? = some s ∧
      ((s :: rest).reverse).length = rest.length + 1 := by
  intro rest
  induction rest with
  | nil =>
    intro s h
    obtain rfl : s = init := h
    exact ⟨⟨rfl, List.chain'_singleton _⟩, rfl, rfl⟩
  | cons u r ih =>
    intro s h
    obtain ⟨hs, hr⟩ := h
    obtain ⟨⟨hhead, hchain⟩, hlast, hlen⟩ := ih hr
    have hrw : (s :: u :: r).reverse = (u :: r).reverse ++ [s] := by simp
    refine ⟨⟨?_, ?_⟩, ?_, by simp⟩
    · rw [hrw, List.head?_append_of_ne_nil _ (by simp)]
      exact hhead
    · rw [hrw]
      refine List.chain'_append.2 ⟨hchain, List.chain'_singleton _, ?_⟩
      intro x hx y hy
      simp only [List.head?_cons, Option.mem_def, Option.some.injEq] at hy
      subst hy
      rw [hlast] at hx
      simp only [Option.mem_def, Option.some.injEq] at hx
      subst hx
      exact hs
    · rw [hrw]
      simp

/-- A valid node's state is reachable from `init` in at most the length
of its parent path. -/
theorem rchain_reachIn {P : PuzzleI σ} {init : σ} :
    ∀ {rest : List σ} {s : σ}, RChain P init s rest →
    ReachIn P rest.length init s := by
  intro rest
  induction rest with
  | nil =>
    intro s h
    obtain rfl : s = init := h
    exact ReachIn.refl _ _
  | cons u r ih =>
    intro s h
    exact ReachIn.step (ih h.2) h.1

/-- Full characterisation of the extension loop `bfsEnqueue`: it appends
a block of new nodes to the queue and to the created list, and their
states to `seen`; the new nodes are exactly the previously unseen
extensions, each recorded with parent `c`, with distinct states; and
afterwards every extension of `c` has been seen. -/
theorem bfsEnqueue_spec (P : PuzzleI σ) (c : σ × List σ) :
    ∀ (exts : List σ) (q : List (σ × List σ)) (seen : List σ)
    (created : List (σ × List σ)),
    ∃ new : List (σ × List σ),
      bfsEnqueue c exts q seen created =
        (q ++ new, seen ++ new.map Prod.fst, created ++ new) ∧
      (∀ n ∈ new, n.2 = c.1 :: c.2 ∧ n.1 ∈ exts ∧ n.1 ∉ seen) ∧
      (new.map Prod.fst).Nodup ∧
      (∀ p ∈ exts, p ∈ seen ++ new.map Prod.fst) := by
  intro exts
  induction exts with
  | nil =>
    intro q seen created
    exact ⟨[], by simp [bfsEnqueue], by simp, by simp, by simp⟩
  | cons p rest ih =>
    intro q seen created
    by_cases hp : p ∈ seen
    · obtain ⟨new, heq, hmem, hnd, hcov⟩ := ih q seen created
      refine ⟨new, by simpa [bfsEnqueue, hp] using heq, ?_, hnd, ?_⟩
      · intro n hn
        obtain ⟨h1, h2, h3⟩ := hmem n hn
        exact ⟨h1, List.mem_cons_of_mem _ h2, h3⟩
      · intro x hx
        rcases List.mem_cons.1 hx with rfl | hx'
        · exact List.mem_append_left _ hp
        · exact hcov x hx'
    · obtain ⟨new, heq, hmem, hnd, hcov⟩ :=
        ih (q ++ [(p, c.1 :: c.2)]) (seen ++ [p]) (created ++ [(p, c.1 :: c.2)])
      refine ⟨(p, c.1 :: c.2) :: new, ?_, ?_, ?_, ?_⟩
      · simpa [bfsEnqueue, hp] using heq
      · intro n hn
        rcases List.mem_cons.1 hn with rfl | hn'
        · exact ⟨rfl, by simp, hp⟩
        · obtain ⟨h1, h2, h3⟩ := hmem n hn'
          refine ⟨h1, List.mem_cons_of_mem _ h2, fun hc => h3 ?_⟩
          exact List.mem_append_left _ hc
      · refine List.nodup_cons.2 ⟨fun hc => ?_, hnd⟩
        obtain ⟨n, hn, hn1⟩ := List.mem_map.1 hc
        exact (hmem n hn).2.2 (by simp [hn1])
      · intro x hx
        rcases List.mem_cons.1 hx with rfl | hx'
        · simp
        · simpa using hcov x hx'

/-- Unfolding of one loop iteration with an empty queue. -/
theorem bfsLoop_succ_nil {P : PuzzleI σ} {fuel : Nat} {curr : σ × List σ}
    {seen : List σ} {created : List (σ × List σ)} :
    bfsLoop P (fuel + 1) curr [] seen created =
      if P.is_solved curr.1 then
        some (some (curr.1 :: curr.2).reverse, created)
      else some (none, created) := rfl

/-- Unfolding of one loop iteration with a non-empty queue. -/
theorem bfsLoop_succ_cons {P : PuzzleI σ} {fuel : Nat} {curr c : σ × List σ}
    {q' : List (σ × List σ)} {seen : List σ} {created : List (σ × List σ)} :
    bfsLoop P (fuel + 1) curr (c :: q') seen created =
      if P.is_solved curr.1 then
        some (some (curr.1 :: curr.2).reverse, created)
      else
        bfsLoop P fuel c
          (bfsEnqueue c (P.extensions c.1) q' (seen ++ [c.1]) created).1
          (bfsEnqueue c (P.extensions c.1) q' (seen ++ [c.1]) created).2.1
          (bfsEnqueue c (P.extensions c.1) q' (seen ++ [c.1]) created).2.2 :=
  rfl

/-- Soundness of a chain returned by the breadth-first loop: if every
node in flight is a valid breadth-first node with no duplicate states on
its path and its path contained in `seen`, a returned chain is a
duplicate-free solution chain from `init`. -/
theorem bfsLoop_chain_sound {P : PuzzleI σ} {init : σ} :
    ∀ {fuel : Nat} {curr : σ × List σ} {q : List (σ × List σ)}
    {seen : List σ} {created : List (σ × List σ)} {ch : List σ}
    {cr : List (σ × List σ)},
    (∀ n ∈ curr :: q, RChain P init n.1 n.2 ∧ (n.1 :: n.2).Nodup ∧
      ∀ x ∈ n.2, x ∈ seen) →
    bfsLoop P fuel curr q seen created = some (some ch, cr) →
    IsSolutionChain P init ch ∧ ch.Nodup := by
  intro fuel
  induction fuel with
  | zero =>
    intro curr q seen created ch cr hinv h
    simp [bfsLoop] at h
  | succ fuel ih =>
    intro curr q seen created ch cr hinv h
    by_cases hsol : P.is_solved curr.1
    · obtain ⟨hv, hnd, -⟩ := hinv curr (List.mem_cons_self _ _)
      obtain ⟨hc, hl, -⟩ := rchain_reconstruct hv
      have h1 : ch = (curr.1 :: curr.2).reverse := by
        cases q with
        | nil =>
          rw [bfsLoop_succ_nil, if_pos hsol] at h
          simp only [Option.some.injEq, Prod.mk.injEq] at h
          exact h.1.symm
        | cons c q' =>
          rw [bfsLoop_succ_cons, if_pos hsol] at h
          simp only [Option.some.injEq, Prod.mk.injEq] at h
          exact h.1.symm
      subst h1
      exact ⟨⟨hc, curr.1, hl, hsol⟩, List.nodup_reverse.2 hnd⟩
    · cases q with
      | nil =>
        rw [bfsLoop_succ_nil, if_neg hsol] at h
        simp at h
      | cons c q' =>
        rw [bfsLoop_succ_cons, if_neg hsol] at h
        obtain ⟨new, heq, hmem, hndn, hcov⟩ :=
          bfsEnqueue_spec P c (P.extensions c.1) q' (seen ++ [c.1]) created
        rw [heq] at h
        simp only at h
        refine ih ?_ h
        intro n hn
        rcases List.mem_cons.1 hn with rfl | hn'
        · obtain ⟨h1, h2, h3⟩ := hinv n (by simp)
          exact ⟨h1, h2, fun x hx => by
            have := h3 x hx
            simp [this]⟩
        rcases List.mem_append.1 hn' with hn'' | hn''
        · obtain ⟨h1, h2, h3⟩ := hinv n (by simp [hn''])
          exact ⟨h1, h2, fun x hx => by
            have := h3 x hx
            simp [this]⟩
        · obtain ⟨h1, h2, h3⟩ := hmem n hn''
          obtain ⟨hcv, hcnd, hcs⟩ := hinv c (by simp)
          refine ⟨?_, ?_, ?_⟩
          · rw [h1]
            exact ⟨h2, hcv⟩
          · rw [h1]
            refine List.nodup_cons.2 ⟨fun hc' => h3 ?_, hcnd⟩
            rcases List.mem_cons.1 hc' with heq1 | hc''
            · exact List.mem_append_right _ (by simp [heq1])
            · exact List.mem_append_left _ (hcs _ hc'')
          · intro x hx
            rw [h1] at hx
            rcases List.mem_cons.1 hx with rfl | hx'
            · simp
            · have := hcs _ hx'
              simp [this]

/-- Parent-link bookkeeping of the breadth-first loop: every constructed
node either has its parent set (non-empty parent path) or is the root
node `(init, [])`. -/
theorem bfsLoop_created_parent {P : PuzzleI σ} {init : σ} :
    ∀ {fuel : Nat} {curr : σ × List σ} {q : List (σ × List σ)}
    {seen : List σ} {created : List (σ × List σ)} {r : Option (List σ)}
    {cr : List (σ × List σ)},
    (∀ n ∈ created, n.2 ≠ [] ∨ n = (init, [])) →
    bfsLoop P fuel curr q seen created = some (r, cr) →
    ∀ n ∈ cr, n.2 ≠ [] ∨ n = (init, []) := by
  intro fuel
  induction fuel with
  | zero =>
    intro curr q seen created r cr hinv h
    simp [bfsLoop] at h
  | succ fuel ih =>
    intro curr q seen created r cr hinv h
    by_cases hsol : P.is_solved curr.1
    · have h2 : cr = created := by
        cases q with
        | nil =>
          rw [bfsLoop_succ_nil, if_pos hsol] at h
          simp only [Option.some.injEq, Prod.mk.injEq] at h
          exact h.2.symm
        | cons c q' =>
          rw [bfsLoop_succ_cons, if_pos hsol] at h
          simp only [Option.some.injEq, Prod.mk.injEq] at h
          exact h.2.symm
      subst h2
      exact hinv
    · cases q with
      | nil =>
        rw [bfsLoop_succ_nil, if_neg hsol] at h
        simp only [Option.some.injEq, Prod.mk.injEq] at h
        obtain ⟨-, h2⟩ := h
        subst h2
        exact hinv
      | cons c q' =>
        rw [bfsLoop_succ_cons, if_neg hsol] at h
        obtain ⟨new, heq, hmem, -, -⟩ :=
          bfsEnqueue_spec P c (P.extensions c.1) q' (seen ++ [c.1]) created
        rw [heq] at h
        simp only at h
        refine ih ?_ h
        intro n hn
        rcases List.mem_append.1 hn with hn' | hn'
        · exact hinv n hn'
        · exact Or.inl (by rw [(hmem n hn').1]; simp)

/-- Termination of the breadth-first loop when the reachable state space
is covered by a finite closed list `R` containing no solved state: with
enough fuel the loop returns the failure result. -/
theorem bfsLoop_no_solution {P : PuzzleI σ} {R : List σ}
    (hclosed : ∀ s ∈ R, ∀ p ∈ P.extensions s, p ∈ R)
    (hnosol : ∀ s ∈ R, P.is_solved s = false) :
    ∀ (N : Nat) (curr : σ × List σ) (q : List (σ × List σ)) (seen : List σ)
    (created : List (σ × List σ)),
    curr.1 ∈ R →
    (∀ n ∈ q, n.1 ∈ R ∧ n.1 ∈ seen) →
    (created.map Prod.fst).Nodup →
    (∀ n ∈ created, n.1 ∈ seen) →
    (∀ n ∈ created, n.1 ∈ R) →
    (R.dedup.length + 1 - created.length) * 2 + q.length ≤ N →
    ∃ fuel cr, bfsLoop P fuel curr q seen created = some (none, cr) := by
  intro N
  induction N with
  | zero =>
    intro curr q seen created hcR hq hcnd hcs hcr hN
    have hq0 : q = [] := by
      cases q with
      | nil => rfl
      | cons c q' => simp at hN
    subst hq0
    exact ⟨1, created, by rw [bfsLoop_succ_nil, if_neg (by
      simp [hnosol curr.1 hcR])]⟩
  | succ N ih =>
    intro curr q seen created hcR hq hcnd hcs hcr hN
    have hsol : ¬ P.is_solved curr.1 = true := by simp [hnosol curr.1 hcR]
    cases q with
    | nil =>
      exact ⟨1, created, by rw [bfsLoop_succ_nil, if_neg hsol]⟩
    | cons c q' =>
      obtain ⟨new, heq, hmem, hndn, -⟩ :=
        bfsEnqueue_spec P c (P.extensions c.1) q' (seen ++ [c.1]) created
      have hcRmem : c.1 ∈ R := (hq c (by simp)).1
      have hnewR : ∀ n ∈ new, n.1 ∈ R := fun n hn =>
        hclosed c.1 hcRmem n.1 (hmem n hn).2.1
      have hcndnew : ((created ++ new).map Prod.fst).Nodup := by
        rw [List.map_append]
        refine List.nodup_append.2 ⟨hcnd, hndn, ?_⟩
        intro x hx hy
        obtain ⟨m, hm, hm1⟩ := List.mem_map.1 hx
        obtain ⟨n, hn, hn1⟩ := List.mem_map.1 hy
        have hns : n.1 ∉ seen ++ [c.1] := (hmem n hn).2.2
        exact hns (List.mem_append_left _
          (by rw [hn1, ← hm1]; exact hcs m hm))
      have hlen : (created ++ new).length ≤ R.dedup.length := by
        have h5 : ((created ++ new).map Prod.fst).length ≤ R.dedup.length := by
          refine nodup_length_le_dedup hcndnew ?_
          intro x hx
          obtain ⟨n, hn, hn1⟩ := List.mem_map.1 hx
          rcases List.mem_append.1 hn with hn' | hn'
          · exact hn1 ▸ hcr n hn'
          · exact hn1 ▸ hnewR n hn'
        simpa using h5
      have hq' : ∀ n ∈ q' ++ new, n.1 ∈ R ∧
          n.1 ∈ seen ++ [c.1] ++ new.map Prod.fst := by
        intro n hn
        rcases List.mem_append.1 hn with hn' | hn'
        · obtain ⟨h1, h2⟩ := hq n (by simp [hn'])
          exact ⟨h1, by simp [h2]⟩
        · refine ⟨hnewR n hn', ?_⟩
          simp only [List.mem_append]
          exact Or.inr (List.mem_map.2 ⟨n, hn', rfl⟩)
      have hcs' : ∀ n ∈ created ++ new,
          n.1 ∈ seen ++ [c.1] ++ new.map Prod.fst := by
        intro n hn
        rcases List.mem_append.1 hn with hn' | hn'
        · have := hcs n hn'
          simp [this]
        · simp only [List.mem_append]
          exact Or.inr (List.mem_map.2 ⟨n, hn', rfl⟩)
      have hcr' : ∀ n ∈ created ++ new, n.1 ∈ R := by
        intro n hn
        rcases List.mem_append.1 hn with hn' | hn'
        · exact hcr n hn'
        · exact hnewR n hn'
      have hN' : (R.dedup.length + 1 - (created ++ new).length) * 2 +
          (q' ++ new).length ≤ N := by
        have h1 : (created ++ new).length = created.length + new.length := by
          simp
        have h2 : (q' ++ new).length = q'.length + new.length := by simp
        have h3 : (c :: q').length = q'.length + 1 := by simp
        omega
      obtain ⟨fuel, cr, hfin⟩ := ih c (q' ++ new)
          (seen ++ [c.1] ++ new.map Prod.fst) (created ++ new) hcRmem hq'
          hcndnew hcs' hcr' hN'
      refine ⟨fuel + 1, cr, ?_⟩
      rw [bfsLoop_succ_cons, if_neg hsol, heq]
      exact hfin

/-- Main lemma for breadth-first minimality: from any loop state
satisfying the invariant, given that some solved state is reachable,
the loop terminates with a solution chain whose number of states is at
most `k + 1` for every `k` within which any solved state is
reachable. -/
theorem bfsLoop_minimal {P : PuzzleI σ} {init t₀ : σ} {k₀ : Nat}
    (hsol0 : ReachIn P k₀ init t₀) (hsolved0 : P.is_solved t₀ = true)
    {R : List σ} (hR : ∀ s, ReachIn P (k₀ + 2) init s → s ∈ R) :
    ∀ (N : Nat) (curr : σ × List σ) (q : List (σ × List σ)) (seen : List σ)
    (created : List (σ × List σ)),
    BfsInv P init R curr q seen created →
    (R.dedup.length + 1 - created.length) * 2 + q.length ≤ N →
    ∃ fuel ch cr, bfsLoop P fuel curr q seen created = some (some ch, cr) ∧
      IsSolutionChain P init ch ∧
      ∀ k t, ReachIn P k init t → P.is_solved t = true →
        ch.length ≤ k + 1 := by
  intro N
  induction N using Nat.strong_induction_on with
  | _ N ih =>
  intro curr q seen created inv hN
  by_cases hsolved : P.is_solved curr.1
  · -- the dequeued node is solved: the loop stops and reconstructs
    obtain ⟨hch, hlast, hlen⟩ := rchain_reconstruct inv.vcurr
    refine ⟨1, (curr.1 :: curr.2).reverse, created, ?_, ⟨hch, curr.1, hlast,
      hsolved⟩, ?_⟩
    · cases q with
      | nil => rw [bfsLoop_succ_nil, if_pos hsolved]
      | cons c q' => rw [bfsLoop_succ_cons, if_pos hsolved]
    · intro k t hr ht
      rw [hlen]
      suffices hsc : curr.2.length ≤ k by omega
      by_contra hlt
      push_neg at hlt
      have htseen : t ∈ seen :=
        inv.discovered t (hr.le_mono (by omega))
      rcases inv.expanded t htseen with ⟨n, hn, hn1⟩ | ⟨-, hor⟩
      · have h1 := inv.minq n hn k (hn1 ▸ hr)
        have h2 := (inv.win n hn).1
        omega
      · rcases hor with heq1 | hns
        · have := inv.minc k (heq1 ▸ hr)
          omega
        · rw [ht] at hns
          exact Bool.noConfusion hns
  · cases q with
    | nil =>
      -- empty queue with an unsolved current node is impossible when a
      -- solution is reachable
      exfalso
      have hall : ∀ k t, ReachIn P k init t → t ∈ seen := by
        refine reach_mem_of_closed (inv.discovered init (ReachIn.refl _ _)) ?_
        intro t ht e he
        rcases inv.expanded t ht with ⟨n, hn, -⟩ | ⟨hexp, -⟩
        · exact absurd hn (List.not_mem_nil n)
        · exact hexp _ he
      rcases inv.expanded t₀ (hall _ _ hsol0) with ⟨n, hn, -⟩ | ⟨-, hor⟩
      · exact absurd hn (List.not_mem_nil n)
      · rcases hor with heq1 | hns
        · exact hsolved (heq1 ▸ hsolved0)
        · rw [hsolved0] at hns
          exact Bool.noConfusion hns
    | cons c q' =>
      -- the loop continues: the frontier depth cannot exceed k₀
      have hd : curr.2.length ≤ k₀ := by
        by_contra hlt
        push_neg at hlt
        have ht0seen : t₀ ∈ seen :=
          inv.discovered t₀ (hsol0.le_mono (by omega))
        rcases inv.expanded t₀ ht0seen with ⟨n, hn, hn1⟩ | ⟨-, hor⟩
        · have h1 := inv.minq n hn k₀ (hn1 ▸ hsol0)
          have h2 := (inv.win n hn).1
          omega
        · rcases hor with heq1 | hns
          · have := inv.minc k₀ (heq1 ▸ hsol0)
            omega
          · rw [hsolved0] at hns
            exact Bool.noConfusion hns
      have hcmem : c ∈ c :: q' := List.mem_cons_self _ _
      have hwc := inv.win c hcmem
      have hdc : c.2.length = curr.2.length ∨
          c.2.length = curr.2.length + 1 := by omega
      obtain ⟨new, heq, hmem, hndn, hcov⟩ :=
        bfsEnqueue_spec P c (P.extensions c.1) q' (seen ++ [c.1]) created
      have hvc : RChain P init c.1 c.2 := inv.vq c hcmem
      -- facts about the pending queue depths when the frontier advances
      have hq'depth : c.2.length = curr.2.length + 1 →
          ∀ n ∈ q', n.2.length = curr.2.length + 1 := by
        intro hc1 n hn
        have h1 := (List.pairwise_cons.1 inv.sorted).1 n hn
        have h2 := (inv.win n (List.mem_cons_of_mem _ hn)).2
        omega
      -- every state reachable within the depth of the popped node is in
      -- the new seen list
      have hdisc' : ∀ t, ReachIn P c.2.length init t →
          t ∈ seen ++ [c.1] ++ new.map Prod.fst := by
        rcases hdc with hdc1 | hdc1
        · intro t hr
          rw [hdc1] at hr
          have := inv.discovered t hr
          simp [this]
        · intro t hr
          rw [hdc1] at hr
          rcases hr.cases_succ with rfl | ⟨u, hr', he'⟩
          · have := inv.discovered t (ReachIn.refl _ _)
            simp [this]
          · have hu : u ∈ seen := inv.discovered u hr'
            rcases inv.expanded u hu with ⟨n, hn, hn1⟩ | ⟨hexp, -⟩
            · rcases List.mem_cons.1 hn with rfl | hn'
              · exact hcov _ (hn1 ▸ he')
              · have h1 := inv.minq n (List.mem_cons_of_mem _ hn')
                  curr.2.length (hn1 ▸ hr')
                have h2 := hq'depth hdc1 n hn'
                omega
            · have := hexp _ he'
              simp [this]
      -- freshly created nodes are created at their minimal depth
      have hminq' : ∀ n ∈ new, ∀ k, ReachIn P k init n.1 →
          c.2.length + 1 ≤ k := by
        intro n hn k hr
        by_contra hlt
        push_neg at hlt
        have hfresh : n.1 ∉ seen ++ [c.1] := (hmem n hn).2.2
        rcases hdc with hdc1 | hdc1
        · have : n.1 ∈ seen :=
            inv.discovered n.1 (by
              rw [hdc1] at hlt
              exact hr.le_mono (by omega))
          exact hfresh (List.mem_append_left _ this)
        · have hr' : ReachIn P (curr.2.length + 1) init n.1 := by
            rw [hdc1] at hlt
            exact hr.le_mono (by omega)
          rcases hr'.cases_succ with heq0 | ⟨u, hr'', he''⟩
          · refine hfresh (List.mem_append_left _ ?_)
            rw [heq0]
            exact inv.discovered init (ReachIn.refl _ _)
          · have hu : u ∈ seen := inv.discovered u hr''
            rcases inv.expanded u hu with ⟨m, hm, hm1⟩ | ⟨hexp, -⟩
            · have h1 := inv.minq m hm curr.2.length (hm1 ▸ hr'')
              have h2 : curr.2.length + 1 ≤ m.2.length := by
                rcases List.mem_cons.1 hm with heqm | hm'
                · rw [heqm]
                  omega
                · have := hq'depth hdc1 m hm'
                  omega
              omega
            · exact hfresh (List.mem_append_left _ (hexp _ he''))
      -- the preserved invariant
      have inv' : BfsInv P init R c (q' ++ new)
          (seen ++ [c.1] ++ new.map Prod.fst) (created ++ new) := by
        refine ⟨hvc, ?_, ?_, ?_, hdisc', ?_, inv.minq c hcmem, ?_, ?_, ?_,
          ?_, ?_⟩
        · intro n hn
          rcases List.mem_append.1 hn with hn' | hn'
          · exact inv.vq n (List.mem_cons_of_mem _ hn')
          · obtain ⟨h1, h2, -⟩ := hmem n hn'
            rw [h1]
            exact ⟨h2, hvc⟩
        · intro n hn
          rcases List.mem_append.1 hn with hn' | hn'
          · have h1 := (List.pairwise_cons.1 inv.sorted).1 n hn'
            have h2 := (inv.win n (List.mem_cons_of_mem _ hn')).2
            omega
          · rw [(hmem n hn').1]
            simp
        · refine List.pairwise_append.2 ⟨(List.pairwise_cons.1 inv.sorted).2,
            ?_, ?_⟩
          · refine List.pairwise_of_forall_mem_list ?_
            intro a ha b hb
            rw [(hmem a ha).1, (hmem b hb).1]
          · intro a ha b hb
            rw [(hmem b hb).1]
            have h2 := (inv.win a (List.mem_cons_of_mem _ ha)).2
            simp only [List.length_cons]
            omega
        · intro t ht
          have ht' : t ∈ seen ∨ t = c.1 ∨ t ∈ new.map Prod.fst := by
            simpa [List.mem_append, or_assoc] using ht
          rcases ht' with hts | rfl | htn
          · rcases inv.expanded t hts with ⟨n, hn, hn1⟩ | ⟨hexp, hor⟩
            · rcases List.mem_cons.1 hn with rfl | hn'
              · refine Or.inr ⟨fun e he => hcov e (hn1 ▸ he), Or.inl hn1.symm⟩
              · exact Or.inl ⟨n, List.mem_append_left _ hn', hn1⟩
            · refine Or.inr ⟨fun e he => ?_, ?_⟩
              · have := hexp e he
                simp [this]
              · rcases hor with heq1 | hns
                · refine Or.inr ?_
                  rw [heq1]
                  simpa using hsolved
                · exact Or.inr hns
          · exact Or.inr ⟨fun e he => hcov e he, Or.inl rfl⟩
          · obtain ⟨n, hn, hn1⟩ := List.mem_map.1 htn
            exact Or.inl ⟨n, List.mem_append_right _ hn, hn1⟩
        · intro n hn
          rcases List.mem_append.1 hn with hn' | hn'
          · exact inv.minq n (List.mem_cons_of_mem _ hn')
          · intro k hr
            rw [(hmem n hn').1]
            simp only [List.length_cons]
            exact hminq' n hn' k hr
        · intro n hn
          rcases List.mem_append.1 hn with hn' | hn'
          · have := inv.qseen n (List.mem_cons_of_mem _ hn')
            simp [this]
          · simp only [List.mem_append]
            exact Or.inr (List.mem_map.2 ⟨n, hn', rfl⟩)
        · rw [List.map_append]
          refine List.nodup_append.2 ⟨inv.cNodup, hndn, ?_⟩
          intro x hx hy
          obtain ⟨m, hm, hm1⟩ := List.mem_map.1 hx
          obtain ⟨n, hn, hn1⟩ := List.mem_map.1 hy
          have hns : n.1 ∉ seen ++ [c.1] := (hmem n hn).2.2
          exact hns (List.mem_append_left _
            (by rw [hn1, ← hm1]; exact inv.cSeen m hm))
        · intro n hn
          rcases List.mem_append.1 hn with hn' | hn'
          · have := inv.cSeen n hn'
            simp [this]
          · simp only [List.mem_append]
            exact Or.inr (List.mem_map.2 ⟨n, hn', rfl⟩)
        · intro n hn
          rcases List.mem_append.1 hn with hn' | hn'
          · exact inv.cR n hn'
          · refine hR n.1 ?_
            have h1 : RChain P init n.1 n.2 := by
              rw [(hmem n hn').1]
              exact ⟨(hmem n hn').2.1, hvc⟩
            have h2 := rchain_reachIn h1
            refine h2.le_mono ?_
            rw [(hmem n hn').1]
            simp only [List.length_cons]
            omega
      -- the measure decreases
      have hcndnew : ((created ++ new).map Prod.fst).Nodup := inv'.cNodup
      have hlen2 : (created ++ new).length ≤ R.dedup.length := by
        have h5 : ((created ++ new).map Prod.fst).length ≤
            R.dedup.length := by
          refine nodup_length_le_dedup hcndnew ?_
          intro x hx
          obtain ⟨n, hn, hn1⟩ := List.mem_map.1 hx
          exact hn1 ▸ inv'.cR n hn
        simpa using h5
      have hN' : (R.dedup.length + 1 - (created ++ new).length) * 2 +
          (q' ++ new).length < N := by
        have h1 : (created ++ new).length = created.length + new.length := by
          simp
        have h2 : (q' ++ new).length = q'.length + new.length := by simp
        have h3 : (c :: q').length = q'.length + 1 := by simp
        omega
      obtain ⟨fuel, ch, cr, hrun, hsound, hmin⟩ :=
        ih _ hN' c (q' ++ new) (seen ++ [c.1] ++ new.map Prod.fst)
          (created ++ new) inv' (le_refl _)
      refine ⟨fuel + 1, ch, cr, ?_, hsound, hmin⟩
      rw [bfsLoop_succ_cons, if_neg hsolved, heq]
      exact hrun

/-- Helper: a solution chain is non-empty, so its length is one more
than its number of extension steps. -/
theorem solution_chain_ne_nil {P : PuzzleI σ} {s : σ} {l : List σ}
    (h : IsSolutionChain P s l) : l ≠ [] := by
  intro hc
  rw [hc] at h
  exact absurd h.1.1 (by simp)

/-- C1, top level: if the puzzle has any solution chain, the
breadth-first solver (with enough fuel) returns a chain, and that chain
is a solution chain of minimal length. -/
theorem breadth_first_solve_minimal {P : PuzzleI σ} {init : σ}
    (hsol : ∃ l, IsSolutionChain P init l) :
    ∃ fuel ch cr, breadth_first_solve P fuel init = some (some ch, cr) ∧
      IsSolutionChain P init ch ∧
      ∀ l, IsSolutionChain P init l → ch.length ≤ l.length := by
  obtain ⟨l₀, hl₀⟩ := hsol
  obtain ⟨hc₀, t₀, hlast₀, hsolved₀⟩ := hl₀
  have hsol0 : ReachIn P (l₀.length - 1) init t₀ :=
    reachIn_of_chain hc₀ hlast₀
  have hminconv : ∀ ch : List σ,
      (∀ k t, ReachIn P k init t → P.is_solved t = true →
        ch.length ≤ k + 1) →
      ∀ l, IsSolutionChain P init l → ch.length ≤ l.length := by
    intro ch hmin l hl
    obtain ⟨hcl, t, hlt, hst⟩ := hl
    have h1 := hmin (l.length - 1) t (reachIn_of_chain hcl hlt) hst
    have h2 : l ≠ [] := solution_chain_ne_nil ⟨hcl, t, hlt, hst⟩
    have h3 : 1 ≤ l.length := List.length_pos.2 h2
    omega
  by_cases hs : P.is_solved init
  · refine ⟨1, [init], [(init, [])], ?_, ?_, ?_⟩
    · show bfsLoop P 1 (init, []) [(init, [])] [] [(init, [])] = _
      rw [bfsLoop_succ_cons, if_pos hs]
      simp
    · exact ⟨⟨rfl, List.chain'_singleton _⟩, init, rfl, hs⟩
    · intro l hl
      have h2 : l ≠ [] := solution_chain_ne_nil hl
      have h3 : 1 ≤ l.length := List.length_pos.2 h2
      simpa using h3
  · obtain ⟨new, heq, hmem, hndn, hcov⟩ :=
      bfsEnqueue_spec P ((init : σ), ([] : List σ))
        (P.extensions (init, ([] : List σ)).1) []
        ([] ++ [(init, ([] : List σ)).1]) [(init, [])]
    simp only at hmem hndn hcov
    have hR : ∀ s, ReachIn P (l₀.length - 1 + 2) init s →
        s ∈ (reachList P init (l₀.length - 1 + 2)).dedup := fun s h =>
      List.mem_dedup.2 (mem_reachList_of_reachIn h)
    have hnewmem : ∀ n ∈ new, n.2 = [init] ∧ n.1 ∈ P.extensions init ∧
        n.1 ∉ ([init] : List σ) := by
      intro n hn
      obtain ⟨h1, h2, h3⟩ := hmem n hn
      exact ⟨h1, h2, by simpa using h3⟩
    have inv₀ : BfsInv P init ((reachList P init (l₀.length - 1 + 2)).dedup)
        (init, []) ([] ++ new) ([] ++ [(init, ([] : List σ)).1] ++
          new.map Prod.fst) ([(init, [])] ++ new) := by
      refine ⟨rfl, ?_, ?_, ?_, ?_, ?_, ?_, ?_, ?_, ?_, ?_, ?_⟩
      · intro n hn
        rw [List.nil_append] at hn
        rw [(hnewmem n hn).1]
        exact ⟨(hnewmem n hn).2.1, rfl⟩
      · intro n hn
        rw [List.nil_append] at hn
        rw [(hnewmem n hn).1]
        simp
      · rw [List.nil_append]
        refine List.pairwise_of_forall_mem_list ?_
        intro a ha b hb
        rw [(hnewmem a ha).1, (hnewmem b hb).1]
      · intro t ht
        have := ht.cases_zero
        subst this
        simp
      · intro t ht
        have ht' : t = init ∨ t ∈ new.map Prod.fst := by
          simpa using ht
        rcases ht' with rfl | htn
        · refine Or.inr ⟨fun e he => ?_, Or.inl rfl⟩
          have := hcov e he
          simpa using this
        · obtain ⟨n, hn, hn1⟩ := List.mem_map.1 htn
          exact Or.inl ⟨n, by simp [hn], hn1⟩
      · intro k hr
        simp
      · intro n hn k hr
        rw [List.nil_append] at hn
        rw [(hnewmem n hn).1]
        simp only [List.length_singleton]
        cases k with
        | zero =>
          have h0 : n.1 = init := hr.cases_zero
          have h1 : ¬ n.1 = init := by simpa using (hnewmem n hn).2.2
          exact absurd h0 h1
        | succ k => omega
      · intro n hn
        rw [List.nil_append] at hn
        simp only [List.mem_append]
        exact Or.inr (List.mem_map.2 ⟨n, hn, rfl⟩)
      · simp only [List.map_append, List.map_cons, List.map_nil]
        refine List.nodup_append.2 ⟨List.nodup_singleton _, hndn, ?_⟩
        intro x hx hy
        obtain ⟨n, hn, hn1⟩ := List.mem_map.1 hy
        have := (hnewmem n hn).2.2
        rw [List.mem_singleton.1 hx] at hn1
        exact this (by simp [hn1])
      · intro n hn
        rcases List.mem_append.1 hn with hn' | hn'
        · rw [List.mem_singleton.1 hn']
          simp
        · simp only [List.mem_append]
          exact Or.inr (List.mem_map.2 ⟨n, hn', rfl⟩)
      · intro n hn
        rcases List.mem_append.1 hn with hn' | hn'
        · rw [List.mem_singleton.1 hn']
          exact hR init (ReachIn.refl _ _)
        · refine hR n.1 ?_
          have h1 : ReachIn P 1 init n.1 :=
            ReachIn.step (ReachIn.refl 0 init) (hnewmem n hn').2.1
          exact h1.le_mono (by omega)
    obtain ⟨fuel, ch, cr, hrun, hsound, hmin⟩ :=
      bfsLoop_minimal hsol0 hsolved₀ hR _ (init, []) ([] ++ new)
        ([] ++ [(init, ([] : List σ)).1] ++ new.map Prod.fst)
        ([(init, [])] ++ new) inv₀ (le_refl _)
    refine ⟨fuel + 1, ch, cr, ?_, hsound, hminconv ch hmin⟩
    show bfsLoop P (fuel + 1) (init, []) [(init, [])] [] [(init, [])] = _
    rw [bfsLoop_succ_cons, if_neg hs, heq]
    exact hrun

end PuzzleTools

namespace WordLadderPuzzle

open PuzzleTools

/-- Every extension keeps the goal word and the word set, and preserves
the length of the current word. -/
theorem extensions_preserve {p q : WordLadderPuzzle}
    (h : q ∈ extensions p) :
    q.from_word.length = p.from_word.length ∧ q.to_word = p.to_word ∧
      q.word_set = p.word_set := by
  simp only [extensions, List.mem_flatMap, List.mem_range,
    List.mem_filterMap] at h
  obtain ⟨i, hi, c, -, hc⟩ := h
  by_cases hcond : p.from_word.take i ++ [c] ++ p.from_word.drop (i + 1) ∈
      p.word_set ∧ p.from_word.take i ++ [c] ++ p.from_word.drop (i + 1) ≠
      p.from_word
  · rw [if_pos hcond] at hc
    obtain ⟨h1, h2, h3⟩ : q.from_word =
        p.from_word.take i ++ [c] ++ p.from_word.drop (i + 1) ∧
        q.to_word = p.to_word ∧ q.word_set = p.word_set := by
      cases q
      simp only [Option.some.injEq] at hc
      rw [← hc]
      exact ⟨rfl, rfl, rfl⟩
    refine ⟨?_, h2, h3⟩
    rw [h1]
    simp only [List.length_append, List.length_take, List.length_drop,
      List.length_singleton]
    omega
  · rw [if_neg hcond] at hc
    exact absurd hc (by simp)

/-- All states reachable from `p` have the same current-word length and
the same goal word as `p`. -/
theorem reach_preserves {p : WordLadderPuzzle} :
    ∀ (k : Nat) (q : WordLadderPuzzle), ReachIn I k p q →
    q.from_word.length = p.from_word.length ∧ q.to_word = p.to_word := by
  intro k
  induction k with
  | zero =>
    intro q h
    rw [h.cases_zero]
    exact ⟨rfl, rfl⟩
  | succ k ihk =>
    intro q h
    rcases h.cases_succ with rfl | ⟨u, hu, he⟩
    · exact ⟨rfl, rfl⟩
    · obtain ⟨h1, h2⟩ := ihk u hu
      obtain ⟨h3, h4, -⟩ := extensions_preserve he
      exact ⟨by rw [h3, h1], by rw [h4, h2]⟩

/-- `WordLadderPuzzle.fail_fast` is sound: a word-length mismatch can
never be repaired by single-letter substitutions, so no reachable state
is solved. -/
theorem fail_fast_sound : FailFastSound I := by
  intro s hs k t hr
  obtain ⟨h1, h2⟩ := reach_preserves k t hr
  have hne : s.from_word.length ≠ s.to_word.length := by
    simpa [PuzzleI.fail_fast, I, fail_fast] using hs
  show (t.from_word == t.to_word) = false
  rw [beq_eq_false_iff_ne]
  intro hc
  rw [← h1, ← h2, hc] at hne
  exact hne rfl

end WordLadderPuzzle

namespace PuzzleTools

variable {σ : Type} [DecidableEq σ]

/-- C2: every chain returned by either solver satisfies adjacency
validity (each consecutive pair is one extension apart, starting at the
initial state) and its final state is solved. -/
theorem solvers_chain_adjacency (P : PuzzleI σ) (s : σ) :
    (∀ fuel ch a, depth_first_solve P fuel s = some (some ch, a) →
      IsChainFrom P s ch ∧ ∃ t, ch.getLast? = some t ∧
        P.is_solved t = true) ∧
    (∀ fuel ch cr, breadth_first_solve P fuel s = some (some ch, cr) →
      IsChainFrom P s ch ∧ ∃ t, ch.getLast? = some t ∧
        P.is_solved t = true) := by
  constructor
  · intro fuel ch a h
    obtain ⟨h1, h2, h3, -, -⟩ := dfs_chain_sound h
    exact ⟨⟨h1, h2⟩, h3⟩
  · intro fuel ch cr h
    have hinv : ∀ n ∈ ((s, []) : σ × List σ) :: [((s : σ), ([] : List σ))],
        RChain P s n.1 n.2 ∧ (n.1 :: n.2).Nodup ∧
        ∀ x ∈ n.2, x ∈ ([] : List σ) := by
      intro n hn
      have hn' : n = (s, []) := by
        rcases List.mem_cons.1 hn with h' | h'
        · exact h'
        · simpa using h'
      subst hn'
      exact ⟨rfl, List.nodup_singleton _, by simp⟩
    have := bfsLoop_chain_sound hinv h
    exact ⟨this.1.1, this.1.2⟩

/-- C4: chains returned by either solver are strictly linear paths from
the initial state: in the list model each node has exactly one successor
(its single child), the head is the initial state (the parentless root),
its states are pairwise distinct, and consecutive states are one move
apart. -/
theorem solvers_chain_linear (P : PuzzleI σ) (s : σ) :
    (∀ fuel ch a, depth_first_solve P fuel s = some (some ch, a) →
      ch.head? = some s ∧ ch.Nodup ∧
        ch.Chain' (fun x y => y ∈ P.extensions x)) ∧
    (∀ fuel ch cr, breadth_first_solve P fuel s = some (some ch, cr) →
      ch.head? = some s ∧ ch.Nodup ∧
        ch.Chain' (fun x y => y ∈ P.extensions x)) := by
  constructor
  · intro fuel ch a h
    obtain ⟨h1, h2, -, h4, -⟩ := dfs_chain_sound h
    exact ⟨h1, h4, h2⟩
  · intro fuel ch cr h
    have hinv : ∀ n ∈ ((s, []) : σ × List σ) :: [((s : σ), ([] : List σ))],
        RChain P s n.1 n.2 ∧ (n.1 :: n.2).Nodup ∧
        ∀ x ∈ n.2, x ∈ ([] : List σ) := by
      intro n hn
      have hn' : n = (s, []) := by
        rcases List.mem_cons.1 hn with h' | h'
        · exact h'
        · simpa using h'
      subst hn'
      exact ⟨rfl, List.nodup_singleton _, by simp⟩
    obtain ⟨⟨⟨h1, h2⟩, -⟩, h3⟩ := bfsLoop_chain_sound hinv h
    exact ⟨h1, h3, h2⟩

/-- C5: on an already-solved initial state (with a sound `fail_fast`),
both solvers return the single-node chain holding just the initial
state: no parent (the root pair has an empty parent path) and no
children. -/
theorem solvers_solved_input (P : PuzzleI σ) (init : σ)
    (hff : FailFastSound P) (hs : P.is_solved init = true) :
    (∀ fuel, depth_first_solve P (fuel + 1) init = some (some [init], [])) ∧
    (∀ fuel, breadth_first_solve P (fuel + 1) init =
      some (some [init], [(init, [])])) := by
  have hffi : P.fail_fast init = false := by
    cases hffb : P.fail_fast init with
    | false => rfl
    | true =>
      have := hff init hffb 0 init (ReachIn.refl _ _)
      rw [hs] at this
      exact Bool.noConfusion this
  constructor
  · intro fuel
    show _depth_first_solve P (fuel + 1) init [] = _
    simp [_depth_first_solve, hffi, hs]
  · intro fuel
    show bfsLoop P (fuel + 1) (init, []) [(init, [])] [] [(init, [])] = _
    rw [bfsLoop_succ_cons, if_pos hs]
    simp

/-- Helper for C3: the no-solution behaviour, with the finite reachable
state space presented as a covering list `R` closed under
extensions. -/
theorem solvers_no_solution_cover (P : PuzzleI σ) (init : σ) (R : List σ)
    (hinit : init ∈ R)
    (hclosed : ∀ s ∈ R, ∀ p ∈ P.extensions s, p ∈ R)
    (hnosol : ∀ s ∈ R, P.is_solved s = false) :
    (∃ fuel, depth_first_solve P fuel init = some (none, [])) ∧
    (∃ fuel cr, breadth_first_solve P fuel init = some (none, cr)) ∧
    (∀ fuel (s : σ) (seen : List σ), s ∈ seen →
      _depth_first_solve P (fuel + 1) s seen = some (none, [])) := by
  refine ⟨?_, ?_, ?_⟩
  · obtain ⟨a, ha⟩ := dfs_no_solution hclosed hnosol
      (R.dedup.length + 1) init [] hinit List.nodup_nil (by simp)
      (by simp)
    have ha0 : a = [] := (dfs_assigned ha).1 rfl
    subst ha0
    exact ⟨R.dedup.length + 1, ha⟩
  · have hns : ¬ P.is_solved init = true := by simp [hnosol init hinit]
    obtain ⟨new, heq, hmem, hndn, hcov⟩ :=
      bfsEnqueue_spec P ((init : σ), ([] : List σ))
        (P.extensions (init, ([] : List σ)).1) []
        ([] ++ [(init, ([] : List σ)).1]) [(init, [])]
    simp only at hmem hndn hcov
    have hnewmem : ∀ n ∈ new, n.2 = [init] ∧ n.1 ∈ P.extensions init ∧
        n.1 ∉ ([init] : List σ) := by
      intro n hn
      obtain ⟨h1, h2, h3⟩ := hmem n hn
      exact ⟨h1, h2, by simpa using h3⟩
    have hqinv : ∀ n ∈ [] ++ new, n.1 ∈ R ∧
        n.1 ∈ [] ++ [(init, ([] : List σ)).1] ++ new.map Prod.fst := by
      intro n hn
      rw [List.nil_append] at hn
      refine ⟨hclosed init hinit n.1 (hnewmem n hn).2.1, ?_⟩
      simp only [List.mem_append]
      exact Or.inr (List.mem_map.2 ⟨n, hn, rfl⟩)
    have hcnd : (([((init : σ), ([] : List σ))] ++ new).map Prod.fst).Nodup := by
      simp only [List.map_append, List.map_cons, List.map_nil]
      refine List.nodup_append.2 ⟨List.nodup_singleton _, hndn, ?_⟩
      intro x hx hy
      obtain ⟨n, hn, hn1⟩ := List.mem_map.1 hy
      have := (hnewmem n hn).2.2
      rw [List.mem_singleton.1 hx] at hn1
      exact this (by simp [hn1])
    have hcseen : ∀ n ∈ [((init : σ), ([] : List σ))] ++ new,
        n.1 ∈ [] ++ [(init, ([] : List σ)).1] ++ new.map Prod.fst := by
      intro n hn
      rcases List.mem_append.1 hn with hn' | hn'
      · rw [List.mem_singleton.1 hn']
        simp
      · simp only [List.mem_append]
        exact Or.inr (List.mem_map.2 ⟨n, hn', rfl⟩)
    have hcrr : ∀ n ∈ [((init : σ), ([] : List σ))] ++ new, n.1 ∈ R := by
      intro n hn
      rcases List.mem_append.1 hn with hn' | hn'
      · rw [List.mem_singleton.1 hn']
        exact hinit
      · exact hclosed init hinit n.1 (hnewmem n hn').2.1
    obtain ⟨fuel, cr, hrun⟩ := bfsLoop_no_solution hclosed hnosol
      ((R.dedup.length + 1 - ([(init, ([] : List σ))] ++ new).length) * 2 +
        ([] ++ new).length)
      (init, []) ([] ++ new)
      ([] ++ [(init, ([] : List σ)).1] ++ new.map Prod.fst)
      ([(init, [])] ++ new) hinit hqinv hcnd hcseen hcrr (le_refl _)
    refine ⟨fuel + 1, cr, ?_⟩
    show bfsLoop P (fuel + 1) (init, []) [(init, [])] [] [(init, [])] = _
    rw [bfsLoop_succ_cons, if_neg hns, heq]
    exact hrun
  · intro fuel s seen hs
    simp [_depth_first_solve, hs]

/-- C3: when the set of states reachable from the initial state under
extensions is finite and contains no solved state, both solvers
terminate and return nothing — even if the state graph has cycles — and
the depth-first solver abandons immediately (without recursing further)
any state that already occurs on the current recursion path. -/
theorem solvers_no_solution (P : PuzzleI σ) (init : σ)
    (hfin : {q | ∃ k, ReachIn P k init q}.Finite)
    (hnosol : ∀ q, (∃ k, ReachIn P k init q) → P.is_solved q = false) :
    (∃ fuel, depth_first_solve P fuel init = some (none, [])) ∧
    (∃ fuel cr, breadth_first_solve P fuel init = some (none, cr)) ∧
    (∀ fuel (s : σ) (seen : List σ), s ∈ seen →
      _depth_first_solve P (fuel + 1) s seen = some (none, [])) := by
  have hmem : ∀ q, q ∈ hfin.toFinset.toList ↔ ∃ k, ReachIn P k init q := by
    intro q
    rw [Finset.mem_toList, Set.Finite.mem_toFinset]
    exact Iff.rfl
  refine solvers_no_solution_cover P init hfin.toFinset.toList ?_ ?_ ?_
  · exact (hmem init).2 ⟨0, ReachIn.refl _ _⟩
  · intro t ht e he
    obtain ⟨k, hk⟩ := (hmem t).1 ht
    exact (hmem e).2 ⟨k + 1, ReachIn.step hk he⟩
  · intro t ht
    exact hnosol t ((hmem t).1 ht)

/-- C6 (amended): in the depth-first solver, parent assignments are made
exactly for the non-root states of a returned chain (and none at all on
failure), while in the breadth-first solver every constructed node other
than the root receives a parent reference at creation time, whether or
not it lies on the returned chain. -/
theorem solvers_parent_assignment (P : PuzzleI σ) (s : σ) :
    (∀ fuel ch a, depth_first_solve P fuel s = some (some ch, a) →
      a = ch.tail.reverse) ∧
    (∀ fuel a, depth_first_solve P fuel s = some (none, a) → a = []) ∧
    (∀ fuel r cr, breadth_first_solve P fuel s = some (r, cr) →
      ∀ n ∈ cr, n.2 ≠ [] ∨ n = (s, [])) := by
  refine ⟨?_, ?_, ?_⟩
  · intro fuel ch a h
    exact ((dfs_assigned h).2 ch rfl).2
  · intro fuel a h
    exact (dfs_assigned h).1 rfl
  · intro fuel r cr h
    refine bfsLoop_created_parent ?_ h
    intro n hn
    exact Or.inr (by simpa using hn)

/-- C7: on the concrete word-substitution scenario (`"cost"` to
`"save"` over the vocabulary `{cost, cast, case, cave, save}`), both
solvers return exactly the 5-state chain
`cost → cast → case → cave → save`. -/
theorem word_ladder_concrete_chain :
    dfsResult WordLadderPuzzle.I 10 costSave = some (some costChain) ∧
    bfsResult WordLadderPuzzle.I 10 costSave = some (some costChain) := by
  constructor
  · decide
  · decide

/-- C6, counterexample to the claim as stated: on the word ladder from
`"aa"` to `"bb"`, the breadth-first solver returns the chain
`aa → ba → bb` but also constructs a node for `"ab"` whose parent is
set (to the root node), although `"ab"` does not lie on the returned
chain. -/
theorem bfs_parent_off_chain_counterexample :
    bfsResult WordLadderPuzzle.I 8 aabb = some (some aabbChain) ∧
    abNode ∈ bfsCreated WordLadderPuzzle.I 8 aabb ∧
    abNode.2 ≠ [] ∧
    abNode.1 ∉ aabbChain := by
  refine ⟨by decide, by decide, by decide, by decide⟩

end PuzzleTools

namespace WordLadderPuzzle

open PuzzleTools

/-- C9: `WordLadderPuzzle.fail_fast` is sound: whenever it returns true
(the current and goal words have different lengths), no sequence of
`extensions` steps reaches a solved state, because every extension
preserves the current word's length and `is_solved` requires the current
word to equal the goal word. -/
theorem fail_fast_sound_for_reachable (p : WordLadderPuzzle)
    (hp : I.fail_fast p = true) :
    ∀ (k : Nat) (q : WordLadderPuzzle), ReachIn I k p q →
      I.is_solved q = false :=
  fail_fast_sound p hp

end WordLadderPuzzle

namespace MNPuzzle

/-- In a list with exactly one `"*"`, every other element differs from
`"*"`. -/
theorem count_one_others {l1 l2 : List String}
    (h : (l1 ++ "*" :: l2).count "*" = 1) : ∀ x ∈ l1 ++ l2, x ≠ "*" := by
  intro x hx hc
  subst hc
  have h1 : (l1 ++ "*" :: l2).count "*" =
      l1.count "*" + (l2.count "*" + 1) := by
    rw [List.count_append, List.count_cons]
    simp
  have h2 : 0 < l1.count "*" + l2.count "*" := by
    rcases List.mem_append.1 hx with hx' | hx'
    · have := List.count_pos_iff_mem.2 hx'
      omega
    · have := List.count_pos_iff_mem.2 hx'
      omega
  omega

/-- C8: for a `MNPuzzle` on a 2×3 grid with exactly one blank `"*"`,
`extensions` returns exactly 2 successor states when the blank is in a
corner cell and exactly 3 when it is in an edge (non-corner) cell. -/
theorem extensions_count_two_three (a b c d e f : String)
    (tg : List (List String))
    (hone : ([a, b, c, d, e, f] : List String).count "*" = 1) :
    ((a = "*" ∨ c = "*" ∨ d = "*" ∨ f = "*") →
      (extensions ⟨[[a, b, c], [d, e, f]], tg⟩).length = 2) ∧
    ((b = "*" ∨ e = "*") →
      (extensions ⟨[[a, b, c], [d, e, f]], tg⟩).length = 3) := by
  have h2 : List.range 2 = [0, 1] := rfl
  have h3 : List.range 3 = [0, 1, 2] := rfl
  constructor
  · rintro (rfl | rfl | rfl | rfl)
    · have ho := @count_one_others [] [b, c, d, e, f]
        (by simpa using hone)
      have hb := ho b (by simp)
      have hc := ho c (by simp)
      have hd := ho d (by simp)
      have he := ho e (by simp)
      have hf := ho f (by simp)
      simp [extensions, n, m, swapBlank, setCell, h2, h3, hb, hc, hd, he, hf]
    · have ho := @count_one_others [a, b] [d, e, f]
        (by simpa using hone)
      have ha := ho a (by simp)
      have hb := ho b (by simp)
      have hd := ho d (by simp)
      have he := ho e (by simp)
      have hf := ho f (by simp)
      simp [extensions, n, m, swapBlank, setCell, h2, h3, ha, hb, hd, he, hf]
    · have ho := @count_one_others [a, b, c] [e, f]
        (by simpa using hone)
      have ha := ho a (by simp)
      have hb := ho b (by simp)
      have hc := ho c (by simp)
      have he := ho e (by simp)
      have hf := ho f (by simp)
      simp [extensions, n, m, swapBlank, setCell, h2, h3, ha, hb, hc, he, hf]
    · have ho := @count_one_others [a, b, c, d, e] []
        (by simpa using hone)
      have ha := ho a (by simp)
      have hb := ho b (by simp)
      have hc := ho c (by simp)
      have hd := ho d (by simp)
      have he := ho e (by simp)
      simp [extensions, n, m, swapBlank, setCell, h2, h3, ha, hb, hc, hd, he]
  · rintro (rfl | rfl)
    · have ho := @count_one_others [a] [c, d, e, f]
        (by simpa using hone)
      have ha := ho a (by simp)
      have hc := ho c (by simp)
      have hd := ho d (by simp)
      have he := ho e (by simp)
      have hf := ho f (by simp)
      simp [extensions, n, m, swapBlank, setCell, h2, h3, ha, hc, hd, he, hf]
    · have ho := @count_one_others [a, b, c, d] [f]
        (by simpa using hone)
      have ha := ho a (by simp)
      have hb := ho b (by simp)
      have hc := ho c (by simp)
      have hd := ho d (by simp)
      have hf := ho f (by simp)
      simp [extensions, n, m, swapBlank, setCell, h2, h3, ha, hb, hc, hd, hf]

end MNPuzzle

namespace GridPegSolitairePuzzle

open PuzzleTools

/-- Writing a row at a different index leaves a row unchanged. -/
theorem getD_set_ne (g : List (List String)) (r : Nat) (v : List String)
    (i : Nat) (hi : i ≠ r) : (g.set r v).getD i [] = g.getD i [] := by
  unfold List.getD
  rw [List.get?_set_ne _ _ (fun h => hi h.symm)]

/-- Writing a row in range makes that row the written value. -/
theorem getD_set_self (g : List (List String)) (r : Nat) (v : List String)
    (hr : r < g.length) : (g.set r v).getD r [] = v := by
  unfold List.getD
  rw [List.get?_set_eq_of_lt _ hr]
  rfl

/-- A cell read with a non-default result is in range. -/
theorem getD_lt_of_ne {l : List String} {c : Nat} {v : String}
    (h : l.getD c "" = v) (hv : v ≠ "") : c < l.length := by
  by_contra hc
  push_neg at hc
  rw [List.getD_eq_default l "" hc] at h
  exact hv h.symm

/-- Splitting one cell off the dropped suffix of a row. -/
theorem count_drop_succ (l : List String) (i : Nat) (h : i < l.length) :
    (l.drop i).count "*" =
      (if l.getD i "" = "*" then 1 else 0) + (l.drop (i + 1)).count "*" := by
  have hd : l.drop i = l.getD i "" :: l.drop (i + 1) := by
    rw [List.getD_eq_getElem l "" h]
    exact List.drop_eq_getElem_cons h
  rw [hd, List.count_cons]
  by_cases hx : l.getD i "" = "*" <;> simp [hx] <;> omega

/-- Peg count of a single cell write in a row. -/
theorem count_set (r : List String) (c : Nat) (v : String)
    (hc : c < r.length) :
    (r.set c v).count "*" + (if r.getD c "" = "*" then 1 else 0) =
      r.count "*" + (if v = "*" then 1 else 0) := by
  induction r generalizing c with
  | nil => simp at hc
  | cons x t ih =>
    cases c with
    | zero =>
      simp only [List.set_cons_zero, List.count_cons, List.getD_cons_zero,
        beq_iff_eq]
      by_cases hx : x = "*" <;> by_cases hv : v = "*" <;>
        simp only [hx, hv, if_true, if_false, if_pos, if_neg,
          not_false_iff] <;> simp <;> omega
    | succ c =>
      simp only [List.set_cons_succ, List.count_cons, List.getD_cons_succ,
        beq_iff_eq]
      have h5 := ih c (by simpa using hc)
      by_cases hx : x = "*"
      · simp only [if_pos hx]
        omega
      · simp only [if_neg hx]
        omega

/-- Peg count of a grid after replacing one row. -/
theorem sum_count_set (g : List (List String)) (i : Nat) (v : List String)
    (hi : i < g.length) :
    ((g.set i v).map (fun r => r.count "*")).sum +
      (g.getD i []).count "*" =
      (g.map (fun r => r.count "*")).sum + v.count "*" := by
  induction g generalizing i with
  | nil => simp at hi
  | cons x t ih =>
    cases i with
    | zero => simp [List.set_cons_zero, List.getD_cons_zero]; omega
    | succ i =>
      simp only [List.set_cons_succ, List.map_cons, List.sum_cons,
        List.getD_cons_succ]
      have := ih i (by simpa using hi)
      omega

/-- Replacing a row with one of the same length preserves the grid
dimensions. -/
theorem set_row_dims {g : List (List String)} {row : Nat}
    {nr : List String} (hnr : nr.length = (g.getD row []).length) :
    (g.set row nr).length = g.length ∧
    ∀ i, ((g.set row nr).getD i []).length = (g.getD i []).length := by
  refine ⟨List.length_set g row nr ▸ rfl, ?_⟩
  intro i
  by_cases hi : i = row
  · subst hi
    by_cases hlt : i < g.length
    · rw [getD_set_self g i nr hlt, hnr]
    · push_neg at hlt
      rw [List.getD_eq_default _ _ (by simpa using hlt),
        List.getD_eq_default _ _ hlt]
  · rw [getD_set_ne g row nr i hi]

/-- `setCell` preserves the grid dimensions. -/
theorem setCell_dims (g : List (List String)) (r c : Nat) (v : String) :
    (setCell g r c v).length = g.length ∧
    ∀ i, ((setCell g r c v).getD i []).length = (g.getD i []).length :=
  set_row_dims (by simp)

/-- Peg count of a horizontal three-cell splice into a row. -/
theorem row_surgery (r : List String) (i : Nat) (x y z : String)
    (hlen : i + 3 ≤ r.length) :
    (r.take i ++ [x, y, z] ++ r.drop (i + 3)).length = r.length ∧
    (r.take i ++ [x, y, z] ++ r.drop (i + 3)).count "*" +
      ((if r.getD i "" = "*" then 1 else 0) +
       (if r.getD (i + 1) "" = "*" then 1 else 0) +
       (if r.getD (i + 2) "" = "*" then 1 else 0)) =
      r.count "*" +
      ((if x = "*" then 1 else 0) + (if y = "*" then 1 else 0) +
       (if z = "*" then 1 else 0)) := by
  constructor
  · simp only [List.length_append, List.length_take, List.length_drop,
      List.length_cons, List.length_nil]
    omega
  · have hsplit : r.count "*" = (r.take i).count "*" +
        (r.drop i).count "*" := by
      conv_lhs => rw [← List.take_append_drop i r]
      rw [List.count_append]
    have hd0 := count_drop_succ r i (by omega)
    have hd1 := count_drop_succ r (i + 1) (by omega)
    have hd2 := count_drop_succ r (i + 2) (by omega)
    have hmid : ([x, y, z] : List String).count "*" =
        (if x = "*" then 1 else 0) + (if y = "*" then 1 else 0) +
        (if z = "*" then 1 else 0) := by
      simp only [List.count_cons, List.count_nil, beq_iff_eq]
      by_cases hx : x = "*" <;> by_cases hy : y = "*" <;>
        by_cases hz : z = "*" <;> simp [hx, hy, hz]
    have hnew : (r.take i ++ [x, y, z] ++ r.drop (i + 3)).count "*" =
        (r.take i).count "*" + ([x, y, z] : List String).count "*" +
        (r.drop (i + 3)).count "*" := by
      rw [List.count_append, List.count_append]
    have e1 : i + 1 + 1 = i + 2 := by omega
    have e2 : i + 2 + 1 = i + 3 := by omega
    rw [e1] at hd1
    rw [e2] at hd2
    omega

/-- Peg count of a vertical jump: write `"*"` into the landing row and
`"."` into the jumped-over and source rows (three distinct rows, same
column). -/
theorem pegSum_setCell3 (g : List (List String)) (r1 r2 r3 col : Nat)
    (h12 : r2 ≠ r1) (h13 : r3 ≠ r1) (h23 : r3 ≠ r2)
    (hr1 : r1 < g.length) (hr2 : r2 < g.length) (hr3 : r3 < g.length)
    (hc1 : col < (g.getD r1 []).length) (hc2 : col < (g.getD r2 []).length)
    (hc3 : col < (g.getD r3 []).length)
    (ho1 : (g.getD r1 []).getD col "" = ".")
    (ho2 : (g.getD r2 []).getD col "" = "*")
    (ho3 : (g.getD r3 []).getD col "" = "*") :
    ((setCell (setCell (setCell g r1 col "*") r2 col ".") r3 col
        ".").map (fun r => r.count "*")).sum + 1 =
      (g.map (fun r => r.count "*")).sum := by
  simp only [setCell]
  rw [getD_set_ne _ _ _ _ h12, getD_set_ne _ _ _ _ h23,
    getD_set_ne _ _ _ _ h13]
  have hs1 := sum_count_set g r1 ((g.getD r1 []).set col "*") hr1
  have hs2 := sum_count_set (g.set r1 ((g.getD r1 []).set col "*")) r2
    ((g.getD r2 []).set col ".") (by simpa using hr2)
  rw [getD_set_ne _ _ _ _ h12] at hs2
  have hs3 := sum_count_set
    ((g.set r1 ((g.getD r1 []).set col "*")).set r2
      ((g.getD r2 []).set col ".")) r3
    ((g.getD r3 []).set col ".") (by simpa using hr3)
  rw [getD_set_ne _ _ _ _ h23, getD_set_ne _ _ _ _ h13] at hs3
  have hc1' := count_set (g.getD r1 []) col "*" hc1
  rw [ho1, if_neg (by decide : ¬ ("." : String) = "*"),
    if_pos (rfl : ("*" : String) = "*")] at hc1'
  have hc2' := count_set (g.getD r2 []) col "." hc2
  rw [ho2, if_pos (rfl : ("*" : String) = "*"),
    if_neg (by decide : ¬ ("." : String) = "*")] at hc2'
  have hc3' := count_set (g.getD r3 []) col "." hc3
  rw [ho3, if_pos (rfl : ("*" : String) = "*"),
    if_neg (by decide : ¬ ("." : String) = "*")] at hc3'
  omega

end GridPegSolitairePuzzle

namespace GridPegSolitairePuzzle

open PuzzleTools

/-- Membership in a conditional singleton block of the extension list. -/
theorem mem_if_singleton {q x : GridPegSolitairePuzzle} {c : Prop}
    [Decidable c] (h : q ∈ (if c then [x] else [])) : c ∧ q = x := by
  by_cases hc : c
  · rw [if_pos hc] at h
    exact ⟨hc, List.mem_singleton.1 h⟩
  · rw [if_neg hc] at h
    exact absurd h (List.not_mem_nil q)

/-- C10 core: every extension of a `GridPegSolitairePuzzle` has the same
grid dimensions and exactly one peg fewer. -/
theorem mem_extensions_spec {p q : GridPegSolitairePuzzle}
    (h : q ∈ extensions p) :
    q.marker.length = p.marker.length ∧
    (∀ i, (q.marker.getD i []).length = (p.marker.getD i []).length) ∧
    pegCount q + 1 = pegCount p := by
  simp only [extensions, List.mem_flatMap, List.mem_range] at h
  obtain ⟨row, hrow, col, hcol, hq⟩ := h
  by_cases hpeg : (p.marker.getD row []).getD col "" = "*"
  case neg => rw [if_neg hpeg] at hq; exact absurd hq (List.not_mem_nil q)
  rw [if_pos hpeg] at hq
  rcases List.mem_append.1 hq with hq' | hq4
  rcases List.mem_append.1 hq' with hq'' | hq3
  rcases List.mem_append.1 hq'' with hq1 | hq2
  · -- jump to the left
    obtain ⟨⟨hc2, hdot, hstar⟩, rfl⟩ := mem_if_singleton hq1
    have hsplice := row_surgery (p.marker.getD row []) (col - 2) "*" "." "."
      (by omega)
    have e1 : col - 2 + 1 = col - 1 := by omega
    have e2 : col - 2 + 2 = col := by omega
    have e3 : col - 2 + 3 = col + 1 := by omega
    rw [e1, e2, e3] at hsplice
    rw [hdot, hstar, hpeg] at hsplice
    rw [if_pos (rfl : ("*" : String) = "*"),
      if_neg (by decide : ¬ ("." : String) = "*")] at hsplice
    obtain ⟨hdims, hcnt⟩ := hsplice
    obtain ⟨hd1, hd2⟩ := @set_row_dims p.marker row _ hdims
    refine ⟨hd1, hd2, ?_⟩
    show ((p.marker.set row _).map (fun r => r.count "*")).sum + 1 = _
    have hsum := sum_count_set p.marker row
      ((p.marker.getD row []).take (col - 2) ++ ["*", ".", "."] ++
        (p.marker.getD row []).drop (col + 1)) hrow
    show _ = (p.marker.map (fun r => r.count "*")).sum
    omega
  · -- jump to the right
    obtain ⟨⟨hc2, hdot, hstar⟩, rfl⟩ := mem_if_singleton hq2
    have hsplice := row_surgery (p.marker.getD row []) col "." "." "*"
      (by omega)
    rw [hpeg, hstar, hdot] at hsplice
    rw [if_pos (rfl : ("*" : String) = "*"),
      if_neg (by decide : ¬ ("." : String) = "*")] at hsplice
    obtain ⟨hdims, hcnt⟩ := hsplice
    obtain ⟨hd1, hd2⟩ := @set_row_dims p.marker row _ hdims
    refine ⟨hd1, hd2, ?_⟩
    show ((p.marker.set row _).map (fun r => r.count "*")).sum + 1 = _
    have hsum := sum_count_set p.marker row
      ((p.marker.getD row []).take col ++ [".", ".", "*"] ++
        (p.marker.getD row []).drop (col + 3)) hrow
    show _ = (p.marker.map (fun r => r.count "*")).sum
    omega
  · -- jump up
    obtain ⟨⟨hr2, hdot, hstar⟩, rfl⟩ := mem_if_singleton hq3
    have hcdot : col < (p.marker.getD (row - 2) []).length :=
      getD_lt_of_ne hdot (by decide)
    have hcstar : col < (p.marker.getD (row - 1) []).length :=
      getD_lt_of_ne hstar (by decide)
    have hsum := pegSum_setCell3 p.marker (row - 2) (row - 1) row col
      (by omega) (by omega) (by omega) (by omega) (by omega) hrow
      hcdot hcstar hcol hdot hstar hpeg
    obtain ⟨hl1, hl2⟩ := setCell_dims p.marker (row - 2) col "*"
    obtain ⟨hl3, hl4⟩ := setCell_dims (setCell p.marker (row - 2) col "*")
      (row - 1) col "."
    obtain ⟨hl5, hl6⟩ := setCell_dims
      (setCell (setCell p.marker (row - 2) col "*") (row - 1) col ".")
      row col "."
    refine ⟨by rw [hl5, hl3, hl1], fun i => by rw [hl6 i, hl4 i, hl2 i],
      hsum⟩
  · -- jump down
    obtain ⟨⟨hr2, hdot, hstar⟩, rfl⟩ := mem_if_singleton hq4
    have hcdot : col < (p.marker.getD (row + 2) []).length :=
      getD_lt_of_ne hdot (by decide)
    have hcstar : col < (p.marker.getD (row + 1) []).length :=
      getD_lt_of_ne hstar (by decide)
    have hsum := pegSum_setCell3 p.marker (row + 2) (row + 1) row col
      (by omega) (by omega) (by omega) hr2 (by omega) hrow
      hcdot hcstar hcol hdot hstar hpeg
    obtain ⟨hl1, hl2⟩ := setCell_dims p.marker (row + 2) col "*"
    obtain ⟨hl3, hl4⟩ := setCell_dims (setCell p.marker (row + 2) col "*")
      (row + 1) col "."
    obtain ⟨hl5, hl6⟩ := setCell_dims
      (setCell (setCell p.marker (row + 2) col "*") (row + 1) col ".")
      row col "."
    refine ⟨by rw [hl5, hl3, hl1], fun i => by rw [hl6 i, hl4 i, hl2 i],
      hsum⟩

end GridPegSolitairePuzzle

namespace GridPegSolitairePuzzle

open PuzzleTools

/-- The peg count strictly decreases along a chain, so a valid chain
from `p` holds at most `pegCount p + 1` states. -/
theorem chain_length_le :
    ∀ (l : List GridPegSolitairePuzzle) (s : GridPegSolitairePuzzle),
    IsChainFrom I s l → l.length ≤ pegCount s + 1 := by
  intro l
  induction l with
  | nil => intro s _; simp
  | cons a t ih =>
    intro s h
    obtain ⟨hhead, hchain⟩ := h
    simp only [List.head?_cons, Option.some.injEq] at hhead
    subst hhead
    cases t with
    | nil => simp
    | cons b t' =>
      have hb : b ∈ I.extensions a := (List.chain'_cons.1 hchain).1
      have hspec := mem_extensions_spec (p := a) (q := b) hb
      have hrec := ih b ⟨rfl, (List.chain'_cons.1 hchain).2⟩
      simp only [List.length_cons] at hrec ⊢
      omega

/-- Reachable states have no more pegs than the start, and are reachable
within `pegCount` moves. -/
theorem reach_pegCount (p : GridPegSolitairePuzzle) :
    ∀ (k : Nat) (q : GridPegSolitairePuzzle), ReachIn I k p q →
    pegCount q ≤ pegCount p ∧ ReachIn I (pegCount p - pegCount q) p q := by
  intro k
  induction k with
  | zero =>
    intro q h
    rw [h.cases_zero]
    exact ⟨le_refl _, ReachIn.refl _ _⟩
  | succ k ihk =>
    intro q h
    rcases h.cases_succ with rfl | ⟨u, hu, he⟩
    · exact ⟨le_refl _, ReachIn.refl _ _⟩
    · obtain ⟨h1, h2⟩ := ihk u hu
      have hspec := mem_extensions_spec (p := u) (q := q) he
      have hle : pegCount q ≤ pegCount p := by omega
      refine ⟨hle, ?_⟩
      have hstep : ReachIn I (pegCount p - pegCount u + 1) p q :=
        ReachIn.step h2 he
      have he2 : pegCount p - pegCount u + 1 = pegCount p - pegCount q := by
        omega
      rw [he2] at hstep
      exact hstep

/-- The set of states reachable from `p` is finite: it is contained in
the concrete list of states reachable within `pegCount p` moves. -/
theorem reachable_finite (p : GridPegSolitairePuzzle) :
    {q | ∃ k, ReachIn I k p q}.Finite := by
  refine Set.Finite.subset (List.finite_toSet (reachList I p (pegCount p)))
    ?_
  intro q hq
  obtain ⟨k, hk⟩ := hq
  obtain ⟨h1, h2⟩ := reach_pegCount p k q hk
  have h3 : ReachIn I (pegCount p) p q := h2.le_mono (by omega)
  exact mem_reachList_of_reachIn h3

/-- C10: every extension of a `GridPegSolitairePuzzle` keeps the grid
dimensions and removes exactly one peg; consequently the peg count
strictly decreases along any chain of extensions, every chain from `p`
has at most `pegCount p + 1` states, and the set of states reachable
from any grid is finite. -/
theorem extensions_peg_invariants (p : GridPegSolitairePuzzle) :
    (∀ q ∈ extensions p, q.marker.length = p.marker.length ∧
      (∀ i, (q.marker.getD i []).length = (p.marker.getD i []).length) ∧
      pegCount q + 1 = pegCount p) ∧
    (∀ l, IsChainFrom I p l → l.length ≤ pegCount p + 1) ∧
    {q | ∃ k, ReachIn I k p q}.Finite := by
  exact ⟨fun q hq => mem_extensions_spec hq, fun l hl => chain_length_le l p hl,
    reachable_finite p⟩

end GridPegSolitairePuzzle

namespace PuzzleTools

/-- Witness for C1 on the concrete `cost → save` ladder. -/
theorem breadth_first_solve_minimal_witness :
    (∃ l, IsSolutionChain WordLadderPuzzle.I costSave l) ∧
    (∃ fuel ch cr, breadth_first_solve WordLadderPuzzle.I fuel costSave =
        some (some ch, cr) ∧
      IsSolutionChain WordLadderPuzzle.I costSave ch ∧
      ∀ l, IsSolutionChain WordLadderPuzzle.I costSave l →
        ch.length ≤ l.length) :=
  have hchain : costChain.Chain'
      (fun a b => b ∈ WordLadderPuzzle.I.extensions a) := by
    simp only [costChain, List.chain'_cons, List.chain'_singleton, and_true]
    exact ⟨by decide, by decide, by decide, by decide⟩
  have hsol : ∃ l, IsSolutionChain WordLadderPuzzle.I costSave l :=
    ⟨costChain, ⟨by decide, hchain⟩,
      ⟨['s', 'a', 'v', 'e'], ['s', 'a', 'v', 'e'], wlWords⟩, by decide,
      by decide⟩
  ⟨hsol, breadth_first_solve_minimal hsol⟩

/-- Witness for C2 on the concrete `cost → save` ladder. -/
theorem solvers_chain_adjacency_witness :
    depth_first_solve WordLadderPuzzle.I 10 costSave =
      some (some costChain, costChain.tail.reverse) ∧
    (IsChainFrom WordLadderPuzzle.I costSave costChain ∧
      ∃ t, costChain.getLast? = some t ∧
        WordLadderPuzzle.I.is_solved t = true) :=
  ⟨by decide, (solvers_chain_adjacency WordLadderPuzzle.I costSave).1 10
    costChain costChain.tail.reverse (by decide)⟩

/-- Witness for C3 on the unsolvable cyclic ladder `aa → zz`. -/
theorem solvers_no_solution_witness :
    ({q | ∃ k, ReachIn WordLadderPuzzle.I k aazz q}.Finite ∧
      (∀ q, (∃ k, ReachIn WordLadderPuzzle.I k aazz q) →
        WordLadderPuzzle.I.is_solved q = false)) ∧
    ((∃ fuel, depth_first_solve WordLadderPuzzle.I fuel aazz =
        some (none, [])) ∧
      (∃ fuel cr, breadth_first_solve WordLadderPuzzle.I fuel aazz =
        some (none, cr)) ∧
      (∀ fuel (s : WordLadderPuzzle) (seen : List WordLadderPuzzle),
        s ∈ seen → _depth_first_solve WordLadderPuzzle.I (fuel + 1) s seen =
          some (none, []))) :=
  have hcov : ∀ (k : Nat) (t : WordLadderPuzzle),
      ReachIn WordLadderPuzzle.I k aazz t → t ∈ aazzStates :=
    reach_mem_of_closed (by decide) (by decide)
  have hfin : {q | ∃ k, ReachIn WordLadderPuzzle.I k aazz q}.Finite :=
    Set.Finite.subset (List.finite_toSet aazzStates)
      (fun q hq => by
        obtain ⟨k, hk⟩ := hq
        exact hcov k q hk)
  have hnos : ∀ q, (∃ k, ReachIn WordLadderPuzzle.I k aazz q) →
      WordLadderPuzzle.I.is_solved q = false := fun q hq => by
    obtain ⟨k, hk⟩ := hq
    have hq' := hcov k q hk
    clear hk
    revert hq'
    revert q
    decide
  ⟨⟨hfin, hnos⟩, solvers_no_solution WordLadderPuzzle.I aazz hfin hnos⟩

/-- Witness for C4 on the concrete `cost → save` ladder (breadth-first
side). -/
theorem solvers_chain_linear_witness :
    breadth_first_solve WordLadderPuzzle.I 10 costSave =
      some (some costChain, costCreated) ∧
    (costChain.head? = some costSave ∧ costChain.Nodup ∧
      costChain.Chain' (fun x y => y ∈ WordLadderPuzzle.I.extensions x)) :=
  ⟨by decide, (solvers_chain_linear WordLadderPuzzle.I costSave).2 10
    costChain costCreated (by decide)⟩

/-- Witness for C5 on the already-solved ladder `save → save`. -/
theorem solvers_solved_input_witness :
    WordLadderPuzzle.I.is_solved saveSave = true ∧
    depth_first_solve WordLadderPuzzle.I 1 saveSave =
      some (some [saveSave], []) ∧
    breadth_first_solve WordLadderPuzzle.I 1 saveSave =
      some (some [saveSave], [(saveSave, [])]) :=
  ⟨by decide,
    (solvers_solved_input WordLadderPuzzle.I saveSave
      WordLadderPuzzle.fail_fast_sound (by decide)).1 0,
    (solvers_solved_input WordLadderPuzzle.I saveSave
      WordLadderPuzzle.fail_fast_sound (by decide)).2 0⟩

/-- Witness for C6 (amended) on the `aa → bb` ladder: the created node
for `"ab"` has its parent set even though it is off the returned
chain. -/
theorem solvers_parent_assignment_witness :
    breadth_first_solve WordLadderPuzzle.I 8 aabb =
      some (some aabbChain, aabbCreated) ∧
    (abNode.2 ≠ [] ∨ abNode = (aabb, [])) :=
  ⟨by decide, (solvers_parent_assignment WordLadderPuzzle.I aabb).2.2 8
    (some aabbChain) aabbCreated (by decide) abNode (by decide)⟩

end PuzzleTools

/-- Witness for C8 on the doctest grid with the blank in the top-left
corner. -/
theorem MNPuzzle.extensions_count_witness :
    (["*", "2", "3", "4", "5", "1"] : List String).count "*" = 1 ∧
    (MNPuzzle.extensions ⟨[["*", "2", "3"], ["4", "5", "1"]],
      [["1", "2", "3"], ["4", "5", "*"]]⟩).length = 2 :=
  ⟨by decide, (MNPuzzle.extensions_count_two_three "*" "2" "3" "4" "5" "1"
    [["1", "2", "3"], ["4", "5", "*"]] (by decide)).1 (Or.inl rfl)⟩

/-- Witness for C9 on the ladder `sam → save` whose word lengths
differ. -/
theorem WordLadderPuzzle.fail_fast_sound_witness :
    WordLadderPuzzle.I.fail_fast samSave = true ∧
    WordLadderPuzzle.I.is_solved samSave = false :=
  ⟨by decide, WordLadderPuzzle.fail_fast_sound_for_reachable samSave
    (by decide) 0 samSave (PuzzleTools.ReachIn.refl 0 samSave)⟩

/-- Witness for C10 on a one-row grid with a single jump available. -/
theorem GridPegSolitairePuzzle.extensions_peg_invariants_witness :
    pegRowJump ∈ GridPegSolitairePuzzle.extensions pegRow ∧
    (pegRowJump.marker.length = pegRow.marker.length ∧
      (∀ i, (pegRowJump.marker.getD i []).length =
        (pegRow.marker.getD i []).length) ∧
      GridPegSolitairePuzzle.pegCount pegRowJump + 1 =
        GridPegSolitairePuzzle.pegCount pegRow) :=
  ⟨by decide,
    (GridPegSolitairePuzzle.extensions_peg_invariants pegRow).1 pegRowJump
      (by decide)⟩
